import Mathlib

/-!
Verification of the fasthooks task-execution engine (src/runner/executor.rs,
src/runner/mod.rs, src/runner/stats.rs) against its natural-language
specification.

Modelling conventions:
* Rust strings (`String`/`&str`) are modelled as `List Char` (`Str` below),
  which makes character-level operations (trim, split, replace, prefix
  matching) directly provable.
* External collaborators are oracle parameters: subprocess spawning, the
  filesystem (`Path::exists`), environment variables, the regex crate and the
  glob crate's pattern matcher are all fields of an `ExecEnv` structure, so the
  engine's logic is a pure function of the oracle.
* `usize`/`u64` counters are modelled as `Nat`.  The only subtraction the code
  performs on them are `saturating_sub` (which is exactly `Nat` subtraction)
  and the in-degree decrement in Kahn's algorithm, which is proved never to
  underflow for hooks satisfying the unique-task-name invariant.
-/

namespace Fasthooks

/-- Rust strings are modelled as lists of characters. -/
abbrev Str := List Char

/-- Whitespace test used by `str::trim` (ASCII subset of Unicode whitespace;
the engine only ever trims config-file text). -/
def isWS (c : Char) : Bool := c = ' ' ∨ c = '\t' ∨ c = '\n' ∨ c = '\r'

/-- Model of `str::trim`: drop leading and trailing whitespace. -/
def trimChars (s : Str) : Str :=
  ((s.dropWhile isWS).reverse.dropWhile isWS).reverse

/-- Model of `str::split([',', ' '])`: split at every comma or space, keeping
empty segments (Rust's `split` keeps them; the caller filters them out). -/
def splitCS (s : Str) : List Str :=
  s.foldr
    (fun c acc =>
      if c = ',' ∨ c = ' ' then [] :: acc
      else match acc with
        | [] => [[c]]
        | cur :: rest => (c :: cur) :: rest)
    [[]]

/-- Model of `str::strip_prefix`: `some rest` when `pat` is a prefix. -/
def stripPre (pat s : Str) : Option Str :=
  if pat.isPrefixOf s then some (s.drop pat.length) else none

/-- Model of `Path::file_name().and_then(to_str).unwrap_or("")` for Unix
paths: the final non-empty, non-`.` component; `""` when there is none or it
is `..` (where Rust returns `None`). -/
def fileName (p : Str) : Str :=
  let comps := (p.splitOn '/').filter (fun c => c ≠ [] ∧ c ≠ ['.'])
  match comps.getLast? with
  | some c => if c = ['.', '.'] then [] else c
  | none => []

/-- Model of `path_str.replace('\\', "/")`. -/
def normalizeSeps (p : Str) : Str :=
  p.map (fun c => if c = '\\' then '/' else c)

/-- Recursion core of `replaceList`, structural on fuel (one unit per
consumed character suffices, since a non-empty match consumes at least one
character). -/
def replaceGo (pat rep : Str) : Nat → Str → Str
  | 0, s => s
  | fuel + 1, s =>
    match s with
    | [] => []
    | c :: rest =>
      if pat ≠ [] ∧ pat.isPrefixOf (c :: rest) then
        rep ++ replaceGo pat rep fuel ((c :: rest).drop pat.length)
      else
        c :: replaceGo pat rep fuel rest

/-- Model of `str::replace(pat, rep)`: replace all non-overlapping occurrences
left to right.  The engine only ever calls it with non-empty patterns
(`"{files}"`, `"$k"`, `"{k}"`); for an empty pattern we return the string
unchanged (Rust would interleave `rep` everywhere, a case never reached). -/
def replaceList (pat rep s : Str) : Str := replaceGo pat rep s.length s

/-- Join a list of strings with single spaces (`Vec::join(" ")`). -/
def joinSpace (l : List Str) : Str := List.intercalate [' '] l

/-- Model of `str::contains(pat)` for a literal pattern: `pat` occurs as a
contiguous substring of `s`. -/
def containsSub (pat : Str) : Str → Bool
  | [] => pat.isEmpty
  | c :: rest => pat.isPrefixOf (c :: rest) || containsSub pat rest

/-! ## Data model (src/config/schema.rs, src/runner/mod.rs) -/

/-- A task within a hook (`config::schema::Task`).  The `env` HashMap is
modelled as an association list. -/
structure Task where
  name : Str
  run : Str
  glob : Option Str
  staged : Bool
  cwd : Option Str
  env : List (Str × Str)
  allow_failure : Bool
  condition : Option Str
  depends_on : List Str
deriving DecidableEq, Repr

/-- Global settings (`config::schema::Settings`). -/
structure Settings where
  parallel : Bool
  max_parallel : Nat
  show_stats : Bool
  show_carbon_savings : Bool
  fail_fast : Bool
  skip_ci : Bool
  colors : Bool
deriving DecidableEq, Repr

/-- A Git hook definition (`config::schema::Hook`). -/
structure Hook where
  tasks : List Task
  parallel : Option Bool
  fail_fast : Option Bool
  skip_ci : Option Bool
deriving DecidableEq, Repr

/-- Result of a task execution (`runner::TaskResult`). -/
structure TaskResult where
  name : Str
  success : Bool
  exit_code : Int
  stdout : Str
  stderr : Str
  duration_ms : Nat
deriving DecidableEq, Repr

/-- `TaskResult::success` constructor (renamed: `success` is a field). -/
def TaskResult.mkSuccess (name stdout stderr : Str) (duration_ms : Nat) :
    TaskResult :=
  { name := name, success := true, exit_code := 0, stdout := stdout,
    stderr := stderr, duration_ms := duration_ms }

/-- `TaskResult::failure` constructor (renamed: mirrors `mkSuccess`). -/
def TaskResult.mkFailure (name : Str) (exit_code : Int)
    (stdout stderr : Str) (duration_ms : Nat) : TaskResult :=
  { name := name, success := false, exit_code := exit_code, stdout := stdout,
    stderr := stderr, duration_ms := duration_ms }

/-- Execution statistics (`runner::stats::ExecutionStats`).  The
floating-point carbon-savings estimate is presentation-layer only and is
omitted from the model. -/
structure ExecutionStats where
  total_tasks : Nat
  successful_tasks : Nat
  failed_tasks : Nat
  wall_time_ms : Nat
  cpu_time_ms : Nat
  parallel_savings_ms : Nat
deriving DecidableEq, Repr

/-- `ExecutionStats::from_tasks`.  `saturating_sub` on `u64` is exactly
truncated `Nat` subtraction. -/
def ExecutionStats.from_tasks (tasks : List TaskResult) (wall_time_ms : Nat) :
    ExecutionStats :=
  let total_tasks := tasks.length
  let successful_tasks := (tasks.filter (fun t => t.success)).length
  let failed_tasks := total_tasks - successful_tasks
  let cpu_time_ms := (tasks.map (fun t => t.duration_ms)).sum
  let parallel_savings_ms := cpu_time_ms - wall_time_ms
  { total_tasks := total_tasks, successful_tasks := successful_tasks,
    failed_tasks := failed_tasks, wall_time_ms := wall_time_ms,
    cpu_time_ms := cpu_time_ms, parallel_savings_ms := parallel_savings_ms }

/-- Result of running all tasks in a hook (`runner::HookResult`). -/
structure HookResult where
  tasks : List TaskResult
  total_duration_ms : Nat
  success : Bool
  stats : ExecutionStats
deriving DecidableEq, Repr

/-- `HookResult::new`: overall success is the conjunction over all collected
task results (note: `allow_failure` is not consulted here). -/
def HookResult.new (tasks : List TaskResult) (total_duration_ms : Nat) :
    HookResult :=
  { tasks := tasks, total_duration_ms := total_duration_ms,
    success := tasks.all (fun t => t.success),
    stats := ExecutionStats.from_tasks tasks total_duration_ms }

/-! ## Execution environment

The executor's interactions with the outside world (src/runner/executor.rs)
are parameters: the glob crate's compiled patterns (`Pattern::new` /
`Pattern::matches`), the staged-file snapshot, hook arguments, the subprocess
spawner, environment variables, the filesystem, the regex crate and the
current branch. -/

/-- Observable outcome of a successfully spawned subprocess:
`status = none` models termination by signal (`ExitStatus::code() == None`). -/
structure SpawnOutput where
  status : Option Int
  stdout : Str
  stderr : Str
  duration_ms : Nat
deriving DecidableEq, Repr

/-- Execution context and external-world oracles, generic in the glob
crate's compiled-pattern type `P`. -/
structure ExecEnv (P : Type) where
  /-- `glob::Pattern::new`; `none` models a pattern-compile error. -/
  compilePat : Str → Option P
  /-- `glob::Pattern::matches`. -/
  patMatches : P → Str → Bool
  /-- Staged/candidate file snapshot (`TaskExecutor.staged_files`). -/
  staged_files : List Str
  /-- Positional hook arguments (`TaskExecutor.hook_args`). -/
  hook_args : List Str
  /-- Subprocess spawner: given the final command string and the task (whose
  `cwd`/`env` configure the child), either a spawn error message or the
  child's observable output. -/
  spawn : Str → Task → Except Str SpawnOutput
  /-- `std::env::var(name).is_ok()`. -/
  envSet : Str → Bool
  /-- `Path::new(path).exists()`. -/
  fsExists : Str → Bool
  /-- `regex::Regex::new`: `none` on compile error, otherwise the compiled
  regex as a match predicate. -/
  reCompile : Str → Option (Str → Bool)
  /-- `TaskExecutor.current_branch`. -/
  current_branch : Option Str
  /-- Wall-clock duration of the whole hook run (`start.elapsed()`). -/
  wall_ms : Nat

/-! ## Task Runner: command building (executor.rs, `build_command`) -/

/-- The `"{files}"` placeholder. -/
def filesPH : Str := "{files}".toList

/-- Quote an individual path iff it contains a space (the source's
`path.contains(' ')` check). -/
def quoteIfSpace (f : Str) : Str :=
  if f.contains ' ' then '"' :: (f ++ ['"']) else f

/-- Modelled from the spec: quote an individual path iff it contains
whitespace (spec §4.5: "individual paths containing whitespace are
quoted"), unlike the source's space-only check. -/
def quoteIfWhitespace (f : Str) : Str :=
  if f.any isWS then '"' :: (f ++ ['"']) else f

/-- The `"$k"` placeholder for the k-th (1-based) hook argument. -/
def dollarPH (k : Nat) : Str := '$' :: Nat.toDigits 10 k

/-- The `"{k}"` placeholder for the k-th (1-based) hook argument. -/
def bracePH (k : Nat) : Str := '{' :: (Nat.toDigits 10 k ++ ['}'])

/-- `TaskExecutor::build_command`: substitute `{files}` (or append the file
list when a glob produced files and no placeholder exists), then replace
`$1,$2,…` and `{1},{2},…` with the hook arguments, in that order. -/
def build_command (hook_args : List Str) (task : Task) (files : List Str) :
    Str :=
  let files_str := joinSpace (files.map quoteIfSpace)
  let command := task.run
  let command :=
    if containsSub filesPH command then replaceList filesPH files_str command
    else if task.glob.isSome ∧ files ≠ [] then command ++ ' ' :: files_str
    else command
  let command :=
    (List.range hook_args.length).foldl
      (fun cmd i => replaceList (dollarPH (i + 1)) (hook_args.get! i) cmd)
      command
  (List.range hook_args.length).foldl
    (fun cmd i => replaceList (bracePH (i + 1)) (hook_args.get! i) cmd)
    command

/-! ## File Selector (executor.rs, `filter_files`) -/

/-- Split a glob specification on commas and spaces, trim each piece and drop
empty pieces (the `patterns` vector in `filter_files`). -/
def parse_patterns (s : Str) : List Str :=
  ((splitCS s).map trimChars).filter (fun p => p ≠ [])

/-- The include patterns: pieces without a `!` prefix that compile. -/
def include_patterns_of {P : Type} (compilePat : Str → Option P) (s : Str) :
    List P :=
  (parse_patterns s).filterMap
    (fun p => match p with
      | '!' :: _ => none
      | _ => compilePat p)

/-- The exclude patterns: `!`-prefixed pieces (prefix stripped) that
compile. -/
def exclude_patterns_of {P : Type} (compilePat : Str → Option P) (s : Str) :
    List P :=
  (parse_patterns s).filterMap
    (fun p => match p with
      | '!' :: negated => compilePat negated
      | _ => none)

/-- One pattern matches a file if it matches the path as given, the bare
filename, or the path with backslashes normalized to slashes. -/
def matchesAnyForm {P : Type} (patMatches : P → Str → Bool) (p : P)
    (f : Str) : Bool :=
  patMatches p f ∨ patMatches p (fileName f) ∨ patMatches p (normalizeSeps f)

/-- `TaskExecutor::filter_files`: no glob → no files; otherwise keep staged
files matching ≥ 1 include pattern and 0 exclude patterns; an empty
include-pattern list selects nothing. -/
def filter_files {P : Type} (env : ExecEnv P) (task : Task) : List Str :=
  match task.glob with
  | none => []
  | some glob_pattern =>
    let include_patterns := include_patterns_of env.compilePat glob_pattern
    let exclude_patterns := exclude_patterns_of env.compilePat glob_pattern
    if include_patterns.isEmpty then []
    else
      env.staged_files.filter (fun f =>
        let included :=
          include_patterns.any (fun p => matchesAnyForm env.patMatches p f)
        if ¬included then false
        else
          let excluded :=
            exclude_patterns.any (fun p => matchesAnyForm env.patMatches p f)
          ¬excluded)

/-! ## Condition Evaluator (executor.rs, `evaluate_condition`) -/

def strEnvColon : Str := "env:".toList
def strBangEnv : Str := "!env:".toList
def strBranch : Str := "branch".toList
def strExistsColon : Str := "exists:".toList
def strBangExists : Str := "!exists:".toList
def strEqEq : Str := "==".toList
def strBangEq : Str := "!=".toList
def strTildeMatch : Str := "=~".toList

/-- `TaskExecutor::evaluate_branch_condition`. -/
def evaluate_branch_condition {P : Type} (env : ExecEnv P)
    (condition : Str) : Bool :=
  let branch := env.current_branch.getD []
  match stripPre strBranch condition with
  | some rest0 =>
    let rest := trimChars rest0
    match stripPre strEqEq rest with
    | some expected => branch = trimChars expected
    | none =>
      match stripPre strBangEq rest with
      | some expected => branch ≠ trimChars expected
      | none =>
        match stripPre strTildeMatch rest with
        | some pattern =>
          match env.reCompile (trimChars pattern) with
          | some re => re branch
          | none => true
        | none => true
  | none => true

/-- `TaskExecutor::evaluate_condition`: first matching prefix wins, with the
`contains("branch")` dispatch sitting between the `env` and `exists`
handlers; unknown formats default to `true`. -/
def evaluate_condition {P : Type} (env : ExecEnv P) (task : Task) : Bool :=
  match task.condition with
  | none => true
  | some condition0 =>
    let condition := trimChars condition0
    match stripPre strEnvColon condition with
    | some var_name => env.envSet (trimChars var_name)
    | none =>
      match stripPre strBangEnv condition with
      | some var_name => ¬env.envSet (trimChars var_name)
      | none =>
        if containsSub strBranch condition then
          evaluate_branch_condition env condition
        else
          match stripPre strExistsColon condition with
          | some path => env.fsExists (trimChars path)
          | none =>
            match stripPre strBangExists condition with
            | some path => ¬env.fsExists (trimChars path)
            | none => true

/-! ## Task Runner: single-task execution (executor.rs, `execute_task`) -/

/-- The `with_context` message attached to a spawn failure; the anyhow error
chain (context plus source) is modelled as their concatenation. -/
def spawnErrMsg (task : Task) (e : Str) : Str :=
  "Failed to execute task: ".toList ++ task.name ++ ": ".toList ++ e

/-- `TaskExecutor::execute_task`: build the command, spawn it through the
shell, and turn the outcome into a `TaskResult`; a spawn error aborts with
`Err` (the `with_context(...)?` path). -/
def execute_task {P : Type} (env : ExecEnv P) (task : Task)
    (files : List Str) : Except Str TaskResult :=
  let command := build_command env.hook_args task files
  match env.spawn command task with
  | .error e => .error (spawnErrMsg task e)
  | .ok out =>
    if out.status = some 0 then
      .ok (TaskResult.mkSuccess task.name out.stdout out.stderr
        out.duration_ms)
    else
      .ok (TaskResult.mkFailure task.name (out.status.getD (-1)) out.stdout
        out.stderr out.duration_ms)

/-! ## Sequential scheduler (executor.rs, `execute_sequential`) -/

/-- `TaskExecutor::execute_sequential`: run tasks in order, skipping tasks
whose glob selected no files, propagating spawn errors (discarding collected
results), and stopping after the first failed task that is not
`allow_failure` when `fail_fast` is set. -/
def execute_sequential {P : Type} (env : ExecEnv P) (fail_fast : Bool) :
    List Task → Except Str (List TaskResult)
  | [] => .ok []
  | task :: rest =>
    let files := filter_files env task
    if task.glob.isSome ∧ files = [] then
      execute_sequential env fail_fast rest
    else
      match execute_task env task files with
      | .error e => .error e
      | .ok result =>
        if ¬result.success ∧ fail_fast ∧ ¬task.allow_failure then
          .ok [result]
        else
          match execute_sequential env fail_fast rest with
          | .error e => .error e
          | .ok results => .ok (result :: results)

/-! ## Scheduling-mode dispatch (executor.rs, `execute_hook` lines 74-79 and
`execute_with_dependencies` lines 247-249) -/

/-- The three scheduling paths of the executor. -/
inductive SchedulingMode where
  | sequential
  | parallelIndependent
  | concurrentDepAware
deriving DecidableEq, Repr

/-- `TaskExecutor::has_dependencies`. -/
def has_dependencies (tasks : List Task) : Bool :=
  tasks.any (fun t => t.depends_on ≠ [])

/-- Which execution path `execute_hook` takes: `execute_parallel` when
parallel is on and no task has dependencies; otherwise
`execute_with_dependencies`, which falls back to `execute_sequential` only
when parallel is off. -/
def scheduling_mode (parallel : Bool) (tasks : List Task) : SchedulingMode :=
  if parallel ∧ ¬has_dependencies tasks then .parallelIndependent
  else if ¬parallel then .sequential
  else .concurrentDepAware

/-! ## Task Graph Builder (executor.rs, `sort_tasks_by_dependencies`)

The Rust code builds three `HashMap`s keyed by task name (`task_map`,
`in_degree`, `graph`) and runs Kahn's algorithm with a `Vec` used as a LIFO
stack (`push`/`pop` at the back).  Modelling choices:
* the stack is a list with the top at the head;
* `HashMap` iteration order (used only to seed the initial queue) is
  unspecified in Rust; the model fixes insertion order — every property
  proved below is independent of this order;
* the maps are total functions; lookups only ever happen at task names,
  where they agree with the Rust maps;
* the in-degree decrement is `Nat` subtraction; for hooks with unique task
  names it is proved (invariant `edges_le` below) that the decremented entry
  is always positive, so saturation (Rust: debug panic / release wrap of
  `usize`) is never exercised. -/

/-- The names of the tasks, in declaration order. -/
def namesOf (tasks : List Task) : List Str := tasks.map (fun t => t.name)

/-- `task_map.get(n)`: HashMap collected from the task list, so a later task
with the same name wins (task names are unique in a valid hook, where this is
just lookup). -/
def task_map_get (tasks : List Task) (n : Str) : Option Task :=
  tasks.reverse.find? (fun t => t.name = n)

/-- The dependencies of `t` that are present in the hook's task list
(`task_map.contains_key(dep)`); absent names are ignored. -/
def presentDeps (tasks : List Task) (t : Task) : List Str :=
  t.depends_on.filter (fun d => (namesOf tasks).contains d)

/-- The in-degree map after the build loop: one unit per present-dependency
occurrence of each task with the given name (0 for non-task names). -/
def inDeg0 (tasks : List Task) (n : Str) : Nat :=
  ((tasks.filter (fun t => t.name = n)).map
    (fun t => (presentDeps tasks t).length)).sum

/-- The adjacency map after the build loop: `graph[d]` lists `t.name` once
per occurrence of `d` among `t`'s present dependencies, in build order. -/
def graphSucc (tasks : List Task) (d : Str) : List Str :=
  tasks.flatMap
    (fun t => ((presentDeps tasks t).filter (fun x => x = d)).map
      (fun _ => t.name))

/-- Inner loop of Kahn's algorithm: decrement the in-degree of each neighbor
of the popped node in turn, pushing neighbors whose degree reaches zero. -/
def relaxNeighbors : List Str → (Str → Nat) → List Str →
    ((Str → Nat) × List Str)
  | [], deg, queue => (deg, queue)
  | nb :: rest, deg, queue =>
    let d := deg nb - 1
    let deg' := Function.update deg nb d
    let queue' := if d = 0 then nb :: queue else queue
    relaxNeighbors rest deg' queue'

/-- The `while let Some(node) = queue.pop()` loop, with explicit fuel (the
loop performs one iteration per queue entry ever pushed, so
`kahnFuel` below is enough fuel to drain the queue). -/
def kahnLoop (tasks : List Task) :
    Nat → List Str → (Str → Nat) → List Task → List Task
  | 0, _, _, sorted => sorted
  | _ + 1, [], _, sorted => sorted
  | fuel + 1, node :: qrest, deg, sorted =>
    let sorted' := match task_map_get tasks node with
      | some t => sorted ++ [t]
      | none => sorted
    let (deg', queue') := relaxNeighbors (graphSucc tasks node) deg qrest
    kahnLoop tasks fuel queue' deg' sorted'

/-- Enough fuel to drain the queue: every entry is either seeded initially
(at most one per task) or pushed when an edge decrements a degree to zero
(at most one per declared dependency). -/
def kahnFuel (tasks : List Task) : Nat :=
  tasks.length + (tasks.map (fun t => t.depends_on.length)).sum + 1

/-- The emitted (topologically sorted) task list before the cycle check. -/
def kahn_sorted (tasks : List Task) : List Task :=
  kahnLoop tasks (kahnFuel tasks)
    ((namesOf tasks).filter (fun n => inDeg0 tasks n = 0))
    (inDeg0 tasks) []

/-- The circular-dependency error message. -/
def cycleMsg : Str := "Circular dependency detected in tasks".toList

/-- `TaskExecutor::sort_tasks_by_dependencies`: Kahn's algorithm; fails when
fewer tasks were emitted than supplied. -/
def sort_tasks_by_dependencies (tasks : List Task) :
    Except Str (List Task) :=
  let sorted := kahn_sorted tasks
  if sorted.length ≠ tasks.length then .error cycleMsg else .ok sorted

/-! ## Hook execution (executor.rs, `execute_hook`) -/

/-- What `execute_hook` does after sorting and condition filtering.  The two
concurrent paths (`execute_parallel`, dependency-aware pool) involve real
concurrency and are not modelled beyond which path is taken. -/
inductive HookOutcome where
  /-- The sequential path ran to completion. -/
  | ran (result : HookResult)
  /-- A concurrent path was taken (tasks listed for reference). -/
  | concurrent (mode : SchedulingMode) (tasks : List Task)
deriving DecidableEq, Repr

/-- `TaskExecutor::execute_hook`: resolve overrides, topologically sort
(propagating the cycle error before anything runs), filter by condition,
then dispatch on the scheduling mode. -/
def execute_hook {P : Type} (env : ExecEnv P) (settings : Settings)
    (hook : Hook) : Except Str HookOutcome :=
  let parallel := hook.parallel.getD settings.parallel
  let fail_fast := hook.fail_fast.getD settings.fail_fast
  match sort_tasks_by_dependencies hook.tasks with
  | .error e => .error e
  | .ok sorted_tasks =>
    let executable_tasks :=
      sorted_tasks.filter (fun t => evaluate_condition env t)
    match scheduling_mode parallel executable_tasks with
    | .sequential =>
      match execute_sequential env fail_fast executable_tasks with
      | .error e => .error e
      | .ok results => .ok (.ran (HookResult.new results env.wall_ms))
    | m => .ok (.concurrent m executable_tasks)

/-! ## Concrete instances used by witnesses and counterexamples -/

/-- A task with every optional feature switched off. -/
def plainTask (name run : Str) : Task :=
  { name := name, run := run, glob := none, staged := true, cwd := none,
    env := [], allow_failure := false, condition := none, depends_on := [] }

/-- `Settings::default()` (schema.rs). -/
def defaultSettings : Settings :=
  { parallel := true, max_parallel := 0, show_stats := true,
    show_carbon_savings := true, fail_fast := true, skip_ci := false,
    colors := true }

/-- A concrete environment (trivial glob library over `Unit`) around a given
spawn oracle. -/
def demoEnv (spawn : Str → Task → Except Str SpawnOutput) : ExecEnv Unit :=
  { compilePat := fun _ => none, patMatches := fun _ _ => false,
    staged_files := [], hook_args := [], spawn := spawn,
    envSet := fun _ => false, fsExists := fun _ => false,
    reCompile := fun _ => none, current_branch := some ("main".toList),
    wall_ms := 5 }

/-- A spawn oracle whose every child exits with code 1. -/
def spawnExit1 : Str → Task → Except Str SpawnOutput :=
  fun _ _ => .ok ⟨some 1, [], [], 3⟩

/-- A failing task marked `allow_failure`. -/
def flakyTask : Task :=
  { plainTask ("flaky".toList) ("exit 1".toList) with allow_failure := true }

/-- A hook containing only `flakyTask`, with parallel off. -/
def flakyHook : Hook :=
  { tasks := [flakyTask], parallel := some false, fail_fast := some true,
    skip_ci := none }

/-- A task depending on a task named `lint`. -/
def depTask : Task :=
  { plainTask ("test".toList) ("cargo test".toList) with
    depends_on := ["lint".toList] }

/-- A task under `env` that cannot trigger the sequential fail-fast break:
it is either skipped (its glob selected no files) or executes to a collected
result that succeeds or is tolerated by `allow_failure`. -/
def NoBreak {P : Type} (env : ExecEnv P) (task : Task) : Prop :=
  (task.glob.isSome ∧ filter_files env task = [])
  ∨ ∃ r, execute_task env task (filter_files env task) = .ok r
      ∧ (r.success = true ∨ task.allow_failure = true)

/-- The `lint` task of spec Scenario B. -/
def lintTask : Task := plainTask ("lint".toList) ("cargo clippy".toList)

/-- A spawn oracle under which the task named `lint` exits 1 and every other
task exits 0. -/
def spawnLintFails : Str → Task → Except Str SpawnOutput :=
  fun _ t =>
    if t.name = "lint".toList then .ok ⟨some 1, [], [], 7⟩
    else .ok ⟨some 0, [], [], 4⟩

/-- A task whose interpreter is missing. -/
def brokenTask : Task := plainTask ("broken".toList) ("no-such-shell".toList)

/-- A task that runs fine. -/
def okTask : Task := plainTask ("ok".toList) ("true".toList)

/-- A spawn oracle under which the task named `broken` fails to spawn and
every other task exits 0. -/
def spawnBrokenErrs : Str → Task → Except Str SpawnOutput :=
  fun _ t =>
    if t.name = "broken".toList then .error ("interpreter missing".toList)
    else .ok ⟨some 0, [], [], 4⟩

/-- Attach a condition expression to a task. -/
def withCondition (t : Task) (c : Str) : Task := { t with condition := some c }

/-- A task gated on the existence of a file named `branch`. -/
def condTask : Task :=
  withCondition (plainTask ("gated".toList) ("echo hi".toList))
    "exists:branch".toList

/-- Modelled from the spec: the command-building pipeline of §4.5 written as
its three numbered steps — (1) substitute a `{files}` placeholder with the
space-joined file list, quoting individual paths containing whitespace
(`quoteIfWhitespace`); (2) if no placeholder exists but a glob specification
produced files, append the file list; (3) substitute positional invocation
arguments as `$1,$2,…` and `{1},{2},…`.  To be compared with
`build_command`, which is translated from the source. -/
def build_command_spec (hook_args : List Str) (task : Task)
    (files : List Str) : Str :=
  let files_str := joinSpace (files.map quoteIfWhitespace)
  let step1 :=
    if containsSub filesPH task.run then
      replaceList filesPH files_str task.run
    else task.run
  let step2 :=
    if ¬containsSub filesPH task.run ∧ task.glob.isSome ∧ files ≠ [] then
      step1 ++ ' ' :: files_str
    else step1
  let step3 :=
    (List.range hook_args.length).foldl
      (fun cmd i => replaceList (dollarPH (i + 1)) (hook_args.get! i) cmd)
      step2
  (List.range hook_args.length).foldl
    (fun cmd i => replaceList (bracePH (i + 1)) (hook_args.get! i) cmd)
    step3

/-- The command template of spec Scenario E. -/
def echoFilesTask : Task :=
  { plainTask ("echo-files".toList) ("echo {files}".toList) with
    glob := some ("*.rs".toList) }

/-- A concrete instantiation of the glob crate for the scenario witnesses:
a pattern `*SUF` matches any string ending in `SUF`; any other pattern
matches only itself.  (This agrees with `glob::Pattern` on the patterns the
scenarios use.) -/
def suffixMatch (pat f : Str) : Bool :=
  match pat with
  | '*' :: rest => rest.reverse.isPrefixOf f.reverse
  | _ => pat = f

/-- An environment whose glob library is `suffixMatch` over the given staged
files. -/
def globEnv (staged : List Str) : ExecEnv Str :=
  { compilePat := some, patMatches := suffixMatch, staged_files := staged,
    hook_args := [], spawn := fun _ _ => .ok ⟨some 0, [], [], 1⟩,
    envSet := fun _ => false, fsExists := fun _ => false,
    reCompile := fun _ => none, current_branch := none, wall_ms := 0 }

/-- Scenario C first task: glob `*.rs`. -/
def globTaskA : Task :=
  { plainTask ("sel".toList) ("echo".toList) with glob := some ("*.rs".toList) }

/-- Scenario C second task: glob `*.rs, !b.rs`. -/
def globTaskB : Task :=
  { plainTask ("sel".toList) ("echo".toList) with
    glob := some ("*.rs, !b.rs".toList) }

/-! ## Specification notions for the Task Graph Builder -/

/-- Edges into `n` processed so far: one per occurrence of `n` in the
adjacency list of a popped node (with multiplicity). -/
def EdgesFrom (tasks : List Task) (popped : List Str) (n : Str) : Nat :=
  (popped.map (fun p => (graphSucc tasks p).count n)).sum

/-- The present-dependency relation is acyclic: a topological numbering
exists, i.e. a rank function placing every task strictly above each of its
dependencies that belong to the hook. -/
def Acyclic (tasks : List Task) : Prop :=
  ∃ r : Str → Nat, ∀ t ∈ tasks, ∀ d ∈ t.depends_on,
    d ∈ namesOf tasks → r d < r t.name

/-- The task list contains a dependency cycle among tasks present in the
hook: a nonempty set of task names each of whose tasks depends on some
member of the set. -/
def HasCycle (tasks : List Task) : Prop :=
  ∃ S : List Str, S ≠ [] ∧ (∀ s ∈ S, s ∈ namesOf tasks)
    ∧ ∀ s ∈ S, ∃ t ∈ tasks, t.name = s ∧ ∃ d ∈ t.depends_on, d ∈ S

/-- `sorted` places every task after all of its dependencies that are
present in the hook. -/
def TopoOrdered (tasks sorted : List Task) : Prop :=
  ∀ p1 t p2, sorted = p1 ++ t :: p2 → ∀ d ∈ t.depends_on,
    d ∈ namesOf tasks → ∃ u ∈ p1, u.name = d

/-- Invariant of the Kahn loop, with `popped` the (ghost) list of names
popped so far, in pop order. -/
structure KahnInv (tasks : List Task) (popped queue : List Str)
    (deg : Str → Nat) (sorted : List Task) : Prop where
  popped_nodup : popped.Nodup
  queue_nodup : queue.Nodup
  disj : ∀ n, n ∈ popped → n ∈ queue → False
  popped_names : ∀ n ∈ popped, n ∈ namesOf tasks
  queue_names : ∀ n ∈ queue, n ∈ namesOf tasks
  sorted_eq : sorted = popped.filterMap (task_map_get tasks)
  edges_le : ∀ n, EdgesFrom tasks popped n ≤ inDeg0 tasks n
  deg_eq : ∀ n, deg n = inDeg0 tasks n - EdgesFrom tasks popped n
  discovered : ∀ n ∈ namesOf tasks,
    (EdgesFrom tasks popped n = inDeg0 tasks n ↔ n ∈ popped ∨ n ∈ queue)
  queue_deps : ∀ n ∈ queue, ∀ t, task_map_get tasks n = some t →
    ∀ d ∈ presentDeps tasks t, d ∈ popped
  popped_topo : ∀ p1 x p2, popped = p1 ++ x :: p2 →
    ∀ t, task_map_get tasks x = some t → ∀ d ∈ presentDeps tasks t, d ∈ p1

/-- Loop variant: queue length plus total remaining in-degree. -/
def kahnPhi (tasks : List Task) (queue : List Str) (deg : Str → Nat) : Nat :=
  queue.length + ((namesOf tasks).map deg).sum

/-- A task depending on the (present) `test` task and on an absent name. -/
def buildTask : Task :=
  { plainTask ("build".toList) ("cargo build".toList) with
    depends_on := ["test".toList, "missing".toList] }

/-- A two-task dependency cycle: `a` depends on `b`. -/
def cycA : Task :=
  { plainTask ("a".toList) ("echo a".toList) with depends_on := ["b".toList] }

/-- A two-task dependency cycle: `b` depends on `a`. -/
def cycB : Task :=
  { plainTask ("b".toList) ("echo b".toList) with depends_on := ["a".toList] }

/-- A three-task acyclic hook: `test` depends on `lint`, `build` depends on
`test` and on the absent name `missing`. -/
def demoTasks3 : List Task := [depTask, lintTask, buildTask]

/-- A topological numbering witnessing that `demoTasks3` is acyclic. -/
def demoRank : Str → Nat := fun n =>
  if n = "lint".toList then 0 else if n = "test".toList then 1 else 2

/-- A hook whose two tasks form a dependency cycle. -/
def cycHook : Hook :=
  { tasks := [cycA, cycB], parallel := none, fail_fast := none,
    skip_ci := none }

end Fasthooks

/-! # Theorems -/

namespace Fasthooks

/-! ## Result Aggregator statistics (C10) -/

/-- C10: `parallel_savings_ms` is the saturating difference between the sum
of per-task durations and the wall time — in particular 0 whenever the wall
time is at least that sum — and `total_tasks` is exactly
`successful_tasks + failed_tasks`. -/
theorem execution_stats_properties (tasks : List TaskResult) (wall : Nat) :
    (ExecutionStats.from_tasks tasks wall).parallel_savings_ms
      = (tasks.map (fun t => t.duration_ms)).sum - wall
    ∧ (wall ≥ (tasks.map (fun t => t.duration_ms)).sum →
        (ExecutionStats.from_tasks tasks wall).parallel_savings_ms = 0)
    ∧ (ExecutionStats.from_tasks tasks wall).total_tasks
      = (ExecutionStats.from_tasks tasks wall).successful_tasks
        + (ExecutionStats.from_tasks tasks wall).failed_tasks := by
  refine ⟨rfl, fun h => Nat.sub_eq_zero_of_le h, ?_⟩
  have hle : (tasks.filter (fun t => t.success)).length ≤ tasks.length :=
    List.length_filter_le _ _
  simp only [ExecutionStats.from_tasks]
  omega

/-- Witness for C10 at a concrete two-task run with wall time exceeding the
duration sum. -/
theorem execution_stats_properties_witness :
    (ExecutionStats.from_tasks
        [TaskResult.mkSuccess ("a".toList) [] [] 100,
         TaskResult.mkFailure ("b".toList) 2 [] [] 200] 400).parallel_savings_ms
      = ([TaskResult.mkSuccess ("a".toList) [] [] 100,
          TaskResult.mkFailure ("b".toList) 2 [] [] 200].map
          (fun t => t.duration_ms)).sum - 400
    ∧ (400 ≥ ([TaskResult.mkSuccess ("a".toList) [] [] 100,
          TaskResult.mkFailure ("b".toList) 2 [] [] 200].map
          (fun t => t.duration_ms)).sum →
        (ExecutionStats.from_tasks
          [TaskResult.mkSuccess ("a".toList) [] [] 100,
           TaskResult.mkFailure ("b".toList) 2 [] [] 200]
          400).parallel_savings_ms = 0)
    ∧ (ExecutionStats.from_tasks
          [TaskResult.mkSuccess ("a".toList) [] [] 100,
           TaskResult.mkFailure ("b".toList) 2 [] [] 200] 400).total_tasks
      = (ExecutionStats.from_tasks
          [TaskResult.mkSuccess ("a".toList) [] [] 100,
           TaskResult.mkFailure ("b".toList) 2 [] [] 200]
          400).successful_tasks
        + (ExecutionStats.from_tasks
          [TaskResult.mkSuccess ("a".toList) [] [] 100,
           TaskResult.mkFailure ("b".toList) 2 [] [] 200]
          400).failed_tasks :=
  execution_stats_properties _ 400

/-! ## `allow_failure` and hook-level success (C1) -/

/-- C1: the code contradicts the claim — a hook whose only task fails but is
marked `allow_failure` still produces `HookResult.success = false`, because
`HookResult::new` takes the conjunction over all collected results and never
consults `allow_failure` (the failing result is collected, the run completes,
yet the hook fails). -/
theorem allow_failure_still_fails_hook :
    flakyTask.allow_failure = true
    ∧ execute_hook (demoEnv spawnExit1) defaultSettings flakyHook
      = .ok (.ran (HookResult.new
          [TaskResult.mkFailure ("flaky".toList) 1 [] [] 3] 5))
    ∧ (HookResult.new
        [TaskResult.mkFailure ("flaky".toList) 1 [] [] 3] 5).success
      = false :=
  ⟨rfl, rfl, rfl⟩

/-! ## Scheduling-mode dispatch (C2) -/

/-- C2 counterexample: with parallel enabled and a task declaring a
dependency, `execute_hook` takes the concurrent dependency-aware path, not
the one-at-a-time sequential path claimed. -/
theorem dependency_hook_not_sequential :
    scheduling_mode true [plainTask ("lint".toList) ("lint".toList), depTask]
      = .concurrentDepAware
    ∧ execute_hook (demoEnv spawnExit1) defaultSettings
        { tasks := [plainTask ("lint".toList) ("lint".toList), depTask],
          parallel := some true, fail_fast := none, skip_ci := none }
      = .ok (.concurrent .concurrentDepAware
          [plainTask ("lint".toList) ("lint".toList), depTask])
    ∧ SchedulingMode.concurrentDepAware ≠ SchedulingMode.sequential :=
  ⟨rfl, rfl, by decide⟩

/-- C2 amended: the sequential path is taken exactly when parallel is
disabled; with parallel enabled, a hook with a dependency goes to the
concurrent dependency-aware scheduler and one without dependencies to the
fully parallel scheduler. -/
theorem scheduling_mode_spec (parallel : Bool) (tasks : List Task) :
    (parallel = false → scheduling_mode parallel tasks = .sequential)
    ∧ (parallel = true → has_dependencies tasks = true →
        scheduling_mode parallel tasks = .concurrentDepAware)
    ∧ (parallel = true → has_dependencies tasks = false →
        scheduling_mode parallel tasks = .parallelIndependent) := by
  refine ⟨fun h => ?_, fun h hd => ?_, fun h hd => ?_⟩
  · subst h; simp [scheduling_mode]
  · subst h; simp [scheduling_mode, hd]
  · subst h; simp [scheduling_mode, hd]

/-- Witness for C2's amended statement at concrete inputs. -/
theorem scheduling_mode_spec_witness :
    ((false = false → scheduling_mode false [depTask] = .sequential)
      ∧ (false = true → has_dependencies [depTask] = true →
          scheduling_mode false [depTask] = .concurrentDepAware)
      ∧ (false = true → has_dependencies [depTask] = false →
          scheduling_mode false [depTask] = .parallelIndependent))
    ∧ ((true = false → scheduling_mode true [depTask] = .sequential)
      ∧ (true = true → has_dependencies [depTask] = true →
          scheduling_mode true [depTask] = .concurrentDepAware)
      ∧ (true = true → has_dependencies [depTask] = false →
          scheduling_mode true [depTask] = .parallelIndependent)) :=
  ⟨scheduling_mode_spec false [depTask], scheduling_mode_spec true [depTask]⟩

/-! ## Sequential execution (C7, C9) -/

/-- Sequential execution distributes over an initial segment none of whose
tasks can trigger the fail-fast break: the segment contributes its results
as a prefix and execution continues with the remainder. -/
lemma execute_sequential_append {P : Type} (env : ExecEnv P) (ff : Bool)
    (pre rest : List Task) (h : ∀ p ∈ pre, NoBreak env p) :
    ∃ rs, execute_sequential env ff pre = .ok rs ∧
      execute_sequential env ff (pre ++ rest)
        = match execute_sequential env ff rest with
          | .error e => .error e
          | .ok rs2 => .ok (rs ++ rs2) := by
  induction pre with
  | nil =>
    refine ⟨[], rfl, ?_⟩
    simp only [List.nil_append]
    cases execute_sequential env ff rest <;> rfl
  | cons p pre ih =>
    obtain ⟨rs, hok, happ⟩ := ih (fun q hq => h q (List.mem_cons_of_mem _ hq))
    have hp := h p (List.mem_cons_self _ _)
    by_cases hsk : p.glob.isSome ∧ filter_files env p = []
    · refine ⟨rs, ?_, ?_⟩
      · rw [show execute_sequential env ff (p :: pre)
            = execute_sequential env ff pre from by
          simp only [execute_sequential]
          rw [if_pos hsk]]
        exact hok
      · rw [List.cons_append,
          show execute_sequential env ff (p :: (pre ++ rest))
            = execute_sequential env ff (pre ++ rest) from by
          simp only [execute_sequential]
          rw [if_pos hsk]]
        exact happ
    · rcases hp with hp | ⟨r, hr, hok2⟩
      · exact absurd hp hsk
      have hnb : ¬(¬r.success = true ∧ ff = true ∧ ¬p.allow_failure = true) := by
        rcases hok2 with h2 | h2 <;> simp [h2]
      refine ⟨r :: rs, ?_, ?_⟩
      · simp only [execute_sequential]
        rw [if_neg hsk, hr]
        simp only []
        rw [if_neg hnb, hok]
      · rw [List.cons_append]
        simp only [execute_sequential]
        rw [if_neg hsk, hr]
        simp only []
        rw [if_neg hnb, happ]
        cases execute_sequential env ff rest <;> simp

/-- C7: in sequential fail-fast mode, the first failing non-`allow_failure`
task ends the run: the tasks after it are abandoned (the outcome does not
depend on them at all and their results are absent), the results up to and
including the failing task are returned, and the resulting `HookResult` is a
failure. -/
theorem execute_sequential_fail_fast {P : Type} (env : ExecEnv P)
    (pre : List Task) (t : Task) (post : List Task) (rt : TaskResult)
    (hpre : ∀ p ∈ pre, NoBreak env p)
    (hskip : ¬(t.glob.isSome ∧ filter_files env t = []))
    (ht : execute_task env t (filter_files env t) = .ok rt)
    (hfail : rt.success = false)
    (haf : t.allow_failure = false) :
    ∃ rs, execute_sequential env true pre = .ok rs
    ∧ execute_sequential env true (pre ++ t :: post) = .ok (rs ++ [rt])
    ∧ (∀ post', execute_sequential env true (pre ++ t :: post')
        = execute_sequential env true (pre ++ t :: post))
    ∧ ∀ d, (HookResult.new (rs ++ [rt]) d).success = false := by
  have hstop : ∀ q : List Task,
      execute_sequential env true (t :: q) = .ok [rt] := by
    intro q
    simp only [execute_sequential]
    rw [if_neg hskip, ht]
    simp only []
    rw [if_pos (by simp [hfail, haf])]
  obtain ⟨rs, hok, happ⟩ := execute_sequential_append env true pre (t :: post) hpre
  refine ⟨rs, hok, ?_, ?_, ?_⟩
  · rw [happ, hstop]
  · intro post'
    obtain ⟨rs', hok', happ'⟩ :=
      execute_sequential_append env true pre (t :: post') hpre
    rw [happ', hstop, happ, hstop]
    cases hok.symm.trans hok'
    rfl
  · intro d
    simp [HookResult.new, hfail]

/-- Witness for C7: spec Scenario B — `lint` fails (not `allow_failure`) and
`test` depends on it; only `lint`'s result is collected and the hook
fails. -/
theorem execute_sequential_fail_fast_witness :
    ∃ rs, execute_sequential (demoEnv spawnLintFails) true [] = .ok rs
    ∧ execute_sequential (demoEnv spawnLintFails) true
        ([] ++ lintTask :: [depTask])
      = .ok (rs ++ [TaskResult.mkFailure ("lint".toList) 1 [] [] 7])
    ∧ (∀ post', execute_sequential (demoEnv spawnLintFails) true
        ([] ++ lintTask :: post')
        = execute_sequential (demoEnv spawnLintFails) true
            ([] ++ lintTask :: [depTask]))
    ∧ ∀ d, (HookResult.new
        (rs ++ [TaskResult.mkFailure ("lint".toList) 1 [] [] 7]) d).success
      = false :=
  execute_sequential_fail_fast (demoEnv spawnLintFails) [] lintTask [depTask]
    (TaskResult.mkFailure ("lint".toList) 1 [] [] 7)
    (by intro p hp; cases hp) (by decide) rfl (by decide) (by decide)

/-- C9: a spawn failure aborts the whole sequential run with an error: no
`TaskResult` is produced for the failing task and the results already
collected for earlier tasks are discarded rather than returned. -/
theorem execute_sequential_spawn_error {P : Type} (env : ExecEnv P)
    (ff : Bool) (pre : List Task) (t : Task) (post : List Task) (e : Str)
    (hpre : ∀ p ∈ pre, NoBreak env p)
    (hskip : ¬(t.glob.isSome ∧ filter_files env t = []))
    (ht : env.spawn (build_command env.hook_args t (filter_files env t)) t
      = .error e) :
    (∃ rs, execute_sequential env ff pre = .ok rs)
    ∧ execute_sequential env ff (pre ++ t :: post)
      = .error (spawnErrMsg t e) := by
  obtain ⟨rs, hok, happ⟩ := execute_sequential_append env ff pre (t :: post) hpre
  have ht' : execute_task env t (filter_files env t)
      = .error (spawnErrMsg t e) := by
    simp only [execute_task]
    rw [ht]
  refine ⟨⟨rs, hok⟩, ?_⟩
  rw [happ,
    show execute_sequential env ff (t :: post) = .error (spawnErrMsg t e) from by
      simp only [execute_sequential]
      rw [if_neg hskip, ht']]

/-- Witness for C9: a completed `ok` task's result is discarded when the
next task's subprocess cannot be spawned. -/
theorem execute_sequential_spawn_error_witness :
    ((∃ rs, execute_sequential (demoEnv spawnBrokenErrs) true [okTask]
        = .ok rs)
    ∧ execute_sequential (demoEnv spawnBrokenErrs) true
        ([okTask] ++ brokenTask :: [])
      = .error (spawnErrMsg brokenTask ("interpreter missing".toList))) :=
  execute_sequential_spawn_error (demoEnv spawnBrokenErrs) true [okTask]
    brokenTask [] "interpreter missing".toList
    (by
      intro p hp
      cases hp with
      | head =>
        exact Or.inr ⟨TaskResult.mkSuccess ("ok".toList) [] [] 4, rfl,
          Or.inl (by decide)⟩
      | tail _ hq => cases hq)
    (by decide) rfl

/-! ## Condition evaluation (C6) -/

/-- `dropWhile` fixes an append when it fixes both halves. -/
lemma dropWhile_append_eq_self {α : Type} (p : α → Bool) (l₁ l₂ : List α)
    (h₁ : l₁.dropWhile p = l₁) (h₂ : l₂.dropWhile p = l₂) :
    (l₁ ++ l₂).dropWhile p = l₁ ++ l₂ := by
  cases l₁ with
  | nil => simpa using h₂
  | cons c t =>
    have hpc : p c = false := by
      have := List.dropWhile_eq_self_iff.mp h₁ (by simp)
      simpa using this
    rw [List.cons_append, List.dropWhile_cons, if_neg (by simp [hpc])]

/-- `trimChars` fixes an append of two strings it would fix. -/
lemma trimChars_append_eq_self (l₁ l₂ : Str)
    (ha : l₁.dropWhile isWS = l₁) (hb : l₂.dropWhile isWS = l₂)
    (hc : l₁.reverse.dropWhile isWS = l₁.reverse)
    (hd : l₂.reverse.dropWhile isWS = l₂.reverse) :
    trimChars (l₁ ++ l₂) = l₁ ++ l₂ := by
  unfold trimChars
  rw [dropWhile_append_eq_self isWS l₁ l₂ ha hb, List.reverse_append,
    dropWhile_append_eq_self isWS l₂.reverse l₁.reverse hd hc]
  simp

/-- `trimChars` fixes a string whose two ends carry no whitespace. -/
lemma trimChars_eq_self (l : Str) (ha : l.dropWhile isWS = l)
    (hc : l.reverse.dropWhile isWS = l.reverse) : trimChars l = l := by
  unfold trimChars
  rw [ha, hc, List.reverse_reverse]

/-- C6 counterexample: the condition `exists:branch` is not dispatched to the
`exists:` handler — because the condition string contains the substring
`branch` it is routed to the branch evaluator, which falls through to `true`;
the evaluation returns `true` although the path `branch` does not exist (the
filesystem oracle answers `false` everywhere). -/
theorem exists_condition_hijacked_by_branch :
    evaluate_condition (demoEnv spawnExit1) condTask = true
    ∧ (demoEnv spawnExit1).fsExists ("branch".toList) = false :=
  ⟨rfl, rfl⟩

/-- C6 amended: for a condition `exists:PATH` (resp. `!exists:PATH`) whose
text does not contain the substring `branch` and whose PATH carries no
surrounding whitespace, evaluation returns exactly whether PATH exists
(resp. does not exist) on disk; a PATH containing `branch` is instead routed
to the branch evaluator. -/
theorem evaluate_condition_exists_spec {P : Type} (env : ExecEnv P)
    (t : Task) (path : Str)
    (h1 : path.dropWhile isWS = path)
    (h2 : path.reverse.dropWhile isWS = path.reverse)
    (hnb1 : containsSub strBranch (strExistsColon ++ path) = false)
    (hnb2 : containsSub strBranch (strBangExists ++ path) = false) :
    evaluate_condition env (withCondition t (strExistsColon ++ path))
      = env.fsExists path
    ∧ evaluate_condition env (withCondition t (strBangExists ++ path))
      = !env.fsExists path := by
  have htrim1 : trimChars (strExistsColon ++ path) = strExistsColon ++ path :=
    trimChars_append_eq_self _ _ (by decide) h1 (by decide) h2
  have htrim2 : trimChars (strBangExists ++ path) = strBangExists ++ path :=
    trimChars_append_eq_self _ _ (by decide) h1 (by decide) h2
  have htrimp : trimChars path = path := trimChars_eq_self path h1 h2
  constructor
  · show evaluate_condition env
      { t with condition := some (strExistsColon ++ path) } = _
    simp only [evaluate_condition, withCondition]
    rw [htrim1]
    rw [show stripPre strEnvColon (strExistsColon ++ path) = none from by
        simp [stripPre, strEnvColon, strExistsColon, List.isPrefixOf],
      show stripPre strBangEnv (strExistsColon ++ path) = none from by
        simp [stripPre, strBangEnv, strExistsColon, List.isPrefixOf],
      hnb1,
      show stripPre strExistsColon (strExistsColon ++ path) = some path from by
        simp [stripPre, strExistsColon, List.isPrefixOf]]
    simp [htrimp]
  · show evaluate_condition env
      { t with condition := some (strBangExists ++ path) } = _
    simp only [evaluate_condition, withCondition]
    rw [htrim2]
    rw [show stripPre strEnvColon (strBangExists ++ path) = none from by
        simp [stripPre, strEnvColon, strBangExists, List.isPrefixOf],
      show stripPre strBangEnv (strBangExists ++ path) = none from by
        simp [stripPre, strBangEnv, strBangExists, List.isPrefixOf],
      hnb2,
      show stripPre strExistsColon (strBangExists ++ path) = none from by
        simp [stripPre, strExistsColon, strBangExists, List.isPrefixOf],
      show stripPre strBangExists (strBangExists ++ path) = some path from by
        simp [stripPre, strBangExists, List.isPrefixOf]]
    simp [htrimp]

/-- Witness for C6's amended statement at the concrete path `flag.txt`
(under an oracle where it does not exist). -/
theorem evaluate_condition_exists_spec_witness :
    evaluate_condition (demoEnv spawnExit1)
      (withCondition (plainTask ("w".toList) ("w".toList))
        (strExistsColon ++ "flag.txt".toList))
      = (demoEnv spawnExit1).fsExists ("flag.txt".toList)
    ∧ evaluate_condition (demoEnv spawnExit1)
      (withCondition (plainTask ("w".toList) ("w".toList))
        (strBangExists ++ "flag.txt".toList))
      = !(demoEnv spawnExit1).fsExists ("flag.txt".toList) :=
  evaluate_condition_exists_spec (demoEnv spawnExit1)
    (plainTask ("w".toList) ("w".toList)) ("flag.txt".toList)
    (by decide) (by decide) (by decide) (by decide)

/-! ## Command building (C8) -/

/-- The source's quoting agrees with the spec's whitespace-quoting exactly
on paths whose only whitespace characters are spaces. -/
lemma quote_eq_of_space_only (f : Str) (h : ∀ c ∈ f, isWS c → c = ' ') :
    quoteIfSpace f = quoteIfWhitespace f := by
  unfold quoteIfSpace quoteIfWhitespace
  by_cases hc : ' ' ∈ f
  · rw [if_pos (List.elem_iff.mpr hc),
      if_pos (List.any_eq_true.mpr ⟨' ', hc, by decide⟩)]
  · rw [if_neg (fun hin => hc (List.elem_iff.mp hin)), if_neg ?_]
    intro hany
    obtain ⟨c, hcf, hwc⟩ := List.any_eq_true.mp hany
    exact hc ((h c hcf hwc) ▸ hcf)

/-- C8 counterexample: a path containing a tab (whitespace that is not a
space) is not quoted by `build_command` — the source checks
`path.contains(' ')` only — while the claimed pipeline
(`build_command_spec`, quoting paths that contain whitespace) quotes it, so
the two differ at this input. -/
theorem build_command_tab_not_quoted :
    build_command [] echoFilesTask [("a\tb.rs".toList)]
      = ("echo a\tb.rs".toList)
    ∧ build_command_spec [] echoFilesTask [("a\tb.rs".toList)]
      = ("echo \"a\tb.rs\"".toList)
    ∧ build_command [] echoFilesTask [("a\tb.rs".toList)]
      ≠ build_command_spec [] echoFilesTask [("a\tb.rs".toList)] := by
  refine ⟨by decide, by decide, by decide⟩

/-- C8 amended: `build_command` performs the spec's three steps in order —
`{files}` substitution with the space-joined file list, appending the file
list when a glob produced files and no placeholder exists, then `$k`/`{k}`
argument substitution — except that an individual path is quoted only when
it contains a space character, not for other whitespace; hence it coincides
with the spec's pipeline whenever every selected path's whitespace (if any)
consists of spaces, and on Scenario E the template `echo {files}` with
files `src/a.rs src/b.rs` resolves to `echo src/a.rs src/b.rs`. -/
theorem build_command_space_quoting :
    (∀ (hook_args : List Str) (task : Task) (files : List Str),
      (∀ f ∈ files, ∀ c ∈ f, isWS c → c = ' ') →
      build_command hook_args task files
        = build_command_spec hook_args task files)
    ∧ build_command [] echoFilesTask
        [("src/a.rs".toList), ("src/b.rs".toList)]
      = ("echo src/a.rs src/b.rs".toList) := by
  constructor
  · intro hook_args task files hsp
    have hq : files.map quoteIfSpace = files.map quoteIfWhitespace :=
      List.map_congr_left (fun f hf => quote_eq_of_space_only f (hsp f hf))
    unfold build_command build_command_spec
    rw [hq]
    by_cases h : containsSub filesPH task.run
    · simp [h]
    · by_cases h2 : task.glob.isSome ∧ files ≠ []
      · simp [h, h2]
      · simp [h, h2]
  · decide

/-- Witness for C8's amended statement: a path containing a space is quoted
identically by the source and the spec pipeline. -/
theorem build_command_space_quoting_witness :
    build_command [] echoFilesTask [("src/a b.rs".toList)]
      = build_command_spec [] echoFilesTask [("src/a b.rs".toList)] :=
  build_command_space_quoting.1 [] echoFilesTask [("src/a b.rs".toList)]
    (by decide)

/-! ## File selection (C5) -/

/-- C5: with a glob specification present, a staged file is selected iff it
matches at least one include pattern and no exclude pattern (each match
being attempted against the path as given, the bare filename, and the
backslash-normalized path), and an empty include-pattern list — e.g. a pure
negation specification — selects nothing; Scenario C: `*.rs` over
`[a.rs, b.md]` selects `[a.rs]`, and `*.rs, !b.rs` over `[a.rs, b.rs]`
selects `[a.rs]`. -/
theorem filter_files_selects_iff :
    (∀ (P : Type) (env : ExecEnv P) (task : Task) (gp : Str),
      task.glob = some gp →
      (∀ f, f ∈ filter_files env task ↔
        f ∈ env.staged_files
        ∧ (∃ p ∈ include_patterns_of env.compilePat gp,
            matchesAnyForm env.patMatches p f = true)
        ∧ (∀ p ∈ exclude_patterns_of env.compilePat gp,
            matchesAnyForm env.patMatches p f = false))
      ∧ (include_patterns_of env.compilePat gp = [] →
          filter_files env task = []))
    ∧ filter_files (globEnv ["a.rs".toList, "b.md".toList]) globTaskA
      = ["a.rs".toList]
    ∧ filter_files (globEnv ["a.rs".toList, "b.rs".toList]) globTaskB
      = ["a.rs".toList] := by
  refine ⟨?_, by decide, by decide⟩
  intro P env task gp hg
  constructor
  · intro f
    simp only [filter_files, hg]
    by_cases hinc : include_patterns_of env.compilePat gp = []
    · simp [hinc]
    · rw [if_neg (by simpa [List.isEmpty_iff] using hinc)]
      simp only [List.mem_filter]
      constructor
      · rintro ⟨hmem, hpred⟩
        by_cases hin : (include_patterns_of env.compilePat gp).any
            (fun p => matchesAnyForm env.patMatches p f) = true
        · rw [if_neg (by simp [hin])] at hpred
          simp only [List.any_eq_true] at hin
          refine ⟨hmem, hin, ?_⟩
          intro p hp
          simp only [decide_not, Bool.not_eq_true'] at hpred
          have := (List.any_eq_false).mp (by simpa using hpred) p hp
          simpa using this
        · rw [if_pos (by simp [hin])] at hpred
          cases hpred
      · rintro ⟨hmem, ⟨p, hp, hmatch⟩, hexc⟩
        have hin : (include_patterns_of env.compilePat gp).any
            (fun p => matchesAnyForm env.patMatches p f) = true :=
          List.any_eq_true.mpr ⟨p, hp, hmatch⟩
        refine ⟨hmem, ?_⟩
        rw [if_neg (by simp [hin])]
        have hexcf : (exclude_patterns_of env.compilePat gp).any
            (fun p => matchesAnyForm env.patMatches p f) = false :=
          List.any_eq_false.mpr (fun q hq => by simp [hexc q hq])
        simp [hexcf]
  · intro hinc
    simp [filter_files, hg, hinc]

/-- Witness for C5's guarded general part, instantiated at Scenario C's
first selection. -/
theorem filter_files_selects_iff_witness :
    (∀ f, f ∈ filter_files (globEnv ["a.rs".toList, "b.md".toList])
        globTaskA ↔
      f ∈ (globEnv ["a.rs".toList, "b.md".toList]).staged_files
      ∧ (∃ p ∈ include_patterns_of
            (globEnv ["a.rs".toList, "b.md".toList]).compilePat
            "*.rs".toList,
          matchesAnyForm
            (globEnv ["a.rs".toList, "b.md".toList]).patMatches p f = true)
      ∧ (∀ p ∈ exclude_patterns_of
            (globEnv ["a.rs".toList, "b.md".toList]).compilePat
            "*.rs".toList,
          matchesAnyForm
            (globEnv ["a.rs".toList, "b.md".toList]).patMatches p f
            = false))
    ∧ (include_patterns_of
          (globEnv ["a.rs".toList, "b.md".toList]).compilePat
          "*.rs".toList = [] →
        filter_files (globEnv ["a.rs".toList, "b.md".toList]) globTaskA
          = []) :=
  filter_files_selects_iff.1 Str (globEnv ["a.rs".toList, "b.md".toList])
    globTaskA ("*.rs".toList) rfl

/-! ## Task Graph Builder: arithmetic and counting lemmas -/

lemma sum_map_add {α : Type} (l : List α) (f g : α → Nat) :
    (l.map (fun x => f x + g x)).sum = (l.map f).sum + (l.map g).sum := by
  induction l with
  | nil => simp
  | cons a l ih => simp [ih]; omega

lemma sum_map_mono {α : Type} (l : List α) (f g : α → Nat)
    (h : ∀ x ∈ l, f x ≤ g x) :
    (l.map f).sum ≤ (l.map g).sum := by
  induction l with
  | nil => simp
  | cons a l ih =>
    simp only [List.map_cons, List.sum_cons]
    have h1 := h a (List.mem_cons_self _ _)
    have h2 := ih (fun x hx => h x (List.mem_cons_of_mem _ hx))
    omega

lemma sum_map_sub_of_le {α : Type} (l : List α) (f g : α → Nat)
    (h : ∀ x ∈ l, g x ≤ f x) :
    (l.map (fun x => f x - g x)).sum = (l.map f).sum - (l.map g).sum := by
  induction l with
  | nil => simp
  | cons a l ih =>
    simp only [List.map_cons, List.sum_cons]
    have h1 := h a (List.mem_cons_self _ _)
    have h2 := ih (fun x hx => h x (List.mem_cons_of_mem _ hx))
    have h3 := sum_map_mono l g f (fun x hx => h x (List.mem_cons_of_mem _ hx))
    omega

lemma sum_ite_single {α : Type} [DecidableEq α] (keys : List α) (a : α)
    (v : Nat) (hnd : keys.Nodup) (ha : a ∈ keys) :
    (keys.map (fun n => if a = n then v else 0)).sum = v := by
  induction keys with
  | nil => cases ha
  | cons k ks ih =>
    simp only [List.map_cons, List.sum_cons]
    rcases List.mem_cons.mp ha with h | h
    · subst h
      have hnotin : a ∉ ks := (List.nodup_cons.mp hnd).1
      rw [if_pos rfl]
      have hz : (ks.map (fun n => if a = n then v else 0)).sum = 0 := by
        apply List.sum_eq_zero
        intro x hx
        obtain ⟨n, hn, hxe⟩ := List.mem_map.mp hx
        have hne : a ≠ n := fun he => hnotin (by rwa [he])
        rw [if_neg hne] at hxe
        exact hxe.symm
      rw [hz]
      omega
    · have hne : a ≠ k := by
        rintro rfl
        exact (List.nodup_cons.mp hnd).1 h
      rw [if_neg hne, ih (List.nodup_cons.mp hnd).2 h]
      omega

lemma sum_count_keys (keys l : List Str) (hnd : keys.Nodup)
    (hsub : ∀ x ∈ l, x ∈ keys) :
    (keys.map (fun d => l.count d)).sum = l.length := by
  induction l with
  | nil => simp
  | cons x xs ih =>
    have hx : x ∈ keys := hsub x (List.mem_cons_self _ _)
    have hcc : ∀ d : Str, (x :: xs).count d
        = xs.count d + (if x = d then 1 else 0) := by
      intro d
      rw [List.count_cons]
      congr 1
      by_cases he : x = d
      · rw [if_pos he, if_pos (by exact beq_iff_eq.mpr he)]
      · rw [if_neg he, if_neg (by simpa using he)]
    calc (keys.map (fun d => (x :: xs).count d)).sum
        = (keys.map (fun d => xs.count d + (if x = d then 1 else 0))).sum := by
          congr 1
          exact List.map_congr_left (fun d _ => hcc d)
      _ = (keys.map (fun d => xs.count d)).sum
          + (keys.map (fun d => if x = d then 1 else 0)).sum :=
          sum_map_add keys _ _
      _ = xs.length + 1 := by
          rw [ih (fun y hy => hsub y (List.mem_cons_of_mem _ hy)),
            sum_ite_single keys x 1 hnd hx]
      _ = (x :: xs).length := by simp [Nat.add_comm]

lemma sum_swap {α β : Type} (A : List α) (B : List β) (F : α → β → Nat) :
    (A.map (fun a => (B.map (fun b => F a b)).sum)).sum
      = (B.map (fun b => (A.map (fun a => F a b)).sum)).sum := by
  induction A with
  | nil =>
    simp only [List.map_nil, List.sum_nil, List.map_cons]
    symm
    apply List.sum_eq_zero
    intro x hx
    obtain ⟨b, _, hbe⟩ := List.mem_map.mp hx
    simpa using hbe.symm
  | cons a A ih =>
    simp only [List.map_cons, List.sum_cons, ih]
    rw [← sum_map_add]

lemma count_map_const {α : Type} (l : List α) (a n : Str) :
    ((l.map (fun _ => a)).count n) = if a = n then l.length else 0 := by
  induction l with
  | nil => simp
  | cons x xs ih =>
    simp only [List.map_cons, List.count_cons, ih]
    by_cases he : a = n
    · rw [if_pos he, if_pos he, if_pos (beq_iff_eq.mpr he)]
      simp
    · rw [if_neg he, if_neg he, if_neg (by simpa using he)]

lemma length_filter_eq_count (l : List Str) (d : Str) :
    (l.filter (fun x => x = d)).length = l.count d := by
  rw [← List.countP_eq_length_filter]
  unfold List.count
  apply List.countP_congr
  intro x _
  constructor
  · intro h
    exact beq_iff_eq.mpr (by simpa using h)
  · intro h
    simpa using beq_iff_eq.mp h

/-! ## Task Graph Builder: name-map lemmas -/

lemma mem_namesOf {tasks : List Task} {n : Str} :
    n ∈ namesOf tasks ↔ ∃ t ∈ tasks, t.name = n := by
  simp [namesOf, List.mem_map]

lemma task_map_get_mem {tasks : List Task} {n : Str} {t : Task}
    (h : task_map_get tasks n = some t) : t ∈ tasks ∧ t.name = n := by
  unfold task_map_get at h
  have h1 := List.find?_some h
  have h2 := List.mem_of_find?_eq_some h
  exact ⟨List.mem_reverse.mp h2, by simpa using h1⟩

lemma task_map_get_isSome {tasks : List Task} {n : Str} :
    (task_map_get tasks n).isSome ↔ n ∈ namesOf tasks := by
  unfold task_map_get
  rw [List.find?_isSome]
  simp [mem_namesOf]

lemma name_injective {tasks : List Task} (hnodup : (namesOf tasks).Nodup)
    {t u : Task} (ht : t ∈ tasks) (hu : u ∈ tasks) (he : t.name = u.name) :
    t = u :=
  List.inj_on_of_nodup_map (by simpa [namesOf] using hnodup) ht hu he

lemma task_map_get_of_mem {tasks : List Task}
    (hnodup : (namesOf tasks).Nodup) {t : Task} (ht : t ∈ tasks) :
    task_map_get tasks t.name = some t := by
  have hs : (task_map_get tasks t.name).isSome :=
    task_map_get_isSome.mpr (mem_namesOf.mpr ⟨t, ht, rfl⟩)
  obtain ⟨u, hu⟩ := Option.isSome_iff_exists.mp hs
  obtain ⟨hmem, hname⟩ := task_map_get_mem hu
  rw [hu, name_injective hnodup hmem ht hname]

/-! ## Task Graph Builder: graph lemmas -/

lemma mem_presentDeps {tasks : List Task} {t : Task} {d : Str} :
    d ∈ presentDeps tasks t ↔ d ∈ t.depends_on ∧ d ∈ namesOf tasks := by
  simp [presentDeps, List.mem_filter]

lemma mem_graphSucc {tasks : List Task} {d n : Str} :
    n ∈ graphSucc tasks d
      ↔ ∃ t ∈ tasks, t.name = n ∧ d ∈ presentDeps tasks t := by
  simp only [graphSucc, List.mem_flatMap, List.mem_map, List.mem_filter]
  constructor
  · rintro ⟨t, ht, x, ⟨hx, hxd⟩, he⟩
    refine ⟨t, ht, he, ?_⟩
    have : x = d := by simpa using hxd
    rwa [this] at hx
  · rintro ⟨t, ht, he, hd⟩
    exact ⟨t, ht, d, ⟨hd, by simp⟩, he⟩

lemma graphSucc_names {tasks : List Task} {d n : Str}
    (h : n ∈ graphSucc tasks d) : n ∈ namesOf tasks := by
  obtain ⟨t, ht, he, _⟩ := mem_graphSucc.mp h
  exact mem_namesOf.mpr ⟨t, ht, he⟩

lemma sum_map_ite_filter {α : Type} (l : List α) (P : α → Prop)
    [DecidablePred P] (f : α → Nat) :
    (l.map (fun x => if P x then f x else 0)).sum
      = ((l.filter (fun x => P x)).map f).sum := by
  induction l with
  | nil => simp
  | cons a l ih =>
    by_cases hp : P a
    · simp [hp, ih]
    · simp [hp, ih]

lemma total_edges {tasks : List Task} (hnodup : (namesOf tasks).Nodup)
    (n : Str) :
    ((namesOf tasks).map (fun d => (graphSucc tasks d).count n)).sum
      = inDeg0 tasks n := by
  have hflat : ∀ d : Str, (graphSucc tasks d).count n
      = (tasks.map (fun t =>
          (((presentDeps tasks t).filter (fun x => x = d)).map
            (fun _ => t.name)).count n)).sum := by
    intro d
    rw [graphSucc, List.count_flatMap]
    rfl
  rw [List.map_congr_left (fun d _ => hflat d), sum_swap]
  have hinner : ∀ t ∈ tasks,
      ((namesOf tasks).map (fun d =>
        (((presentDeps tasks t).filter (fun x => x = d)).map
          (fun _ => t.name)).count n)).sum
      = if t.name = n then (presentDeps tasks t).length else 0 := by
    intro t _
    have hpt : ∀ d : Str,
        (((presentDeps tasks t).filter (fun x => x = d)).map
          (fun _ => t.name)).count n
        = if t.name = n then (presentDeps tasks t).count d else 0 := by
      intro d
      rw [count_map_const, length_filter_eq_count]
    rw [List.map_congr_left (fun d _ => hpt d)]
    by_cases hn : t.name = n
    · simp only [hn, if_pos rfl]
      exact sum_count_keys _ _ hnodup
        (fun x hx => (mem_presentDeps.mp hx).2)
    · simp only [if_neg hn]
      apply List.sum_eq_zero
      intro x hx
      obtain ⟨d, _, he⟩ := List.mem_map.mp hx
      exact he.symm
  rw [List.map_congr_left hinner, sum_map_ite_filter, inDeg0]

lemma EdgesFrom_nil {tasks : List Task} (n : Str) :
    EdgesFrom tasks [] n = 0 := rfl

lemma EdgesFrom_snoc {tasks : List Task} (popped : List Str) (q n : Str) :
    EdgesFrom tasks (popped ++ [q]) n
      = EdgesFrom tasks popped n + (graphSucc tasks q).count n := by
  simp [EdgesFrom]

lemma EdgesFrom_le {tasks : List Task} (hnodup : (namesOf tasks).Nodup)
    {popped : List Str} (hpn : popped.Nodup)
    (hsub : ∀ x ∈ popped, x ∈ namesOf tasks) (n : Str) :
    EdgesFrom tasks popped n ≤ inDeg0 tasks n := by
  rw [← total_edges hnodup n]
  obtain ⟨l, hperm, hsl⟩ := hpn.subperm (fun x hx => hsub x hx)
  unfold EdgesFrom
  have h1 : (popped.map (fun p => (graphSucc tasks p).count n)).sum
      = (l.map (fun p => (graphSucc tasks p).count n)).sum :=
    List.Perm.sum_eq (List.Perm.map _ hperm.symm)
  have h2 : (l.map (fun p => (graphSucc tasks p).count n)).sum
      ≤ ((namesOf tasks).map (fun p => (graphSucc tasks p).count n)).sum :=
    List.Sublist.sum_le_sum (List.Sublist.map _ hsl)
      (fun a _ => Nat.zero_le a)
  omega

lemma deps_in_popped_of_full {tasks : List Task}
    (hnodup : (namesOf tasks).Nodup) {popped : List Str}
    (hpn : popped.Nodup) (hsub : ∀ x ∈ popped, x ∈ namesOf tasks)
    {n : Str} {t : Task} (hget : task_map_get tasks n = some t)
    (hfull : EdgesFrom tasks popped n = inDeg0 tasks n) :
    ∀ d ∈ presentDeps tasks t, d ∈ popped := by
  intro d hd
  by_contra hdnp
  have hdn : d ∈ namesOf tasks := (mem_presentDeps.mp hd).2
  have hsnoc : EdgesFrom tasks (popped ++ [d]) n ≤ inDeg0 tasks n := by
    refine EdgesFrom_le hnodup ?_ ?_ n
    · simpa [List.nodup_append] using ⟨hpn, hdnp⟩
    · intro x hx
      rcases List.mem_append.mp hx with h | h
      · exact hsub x h
      · rw [List.mem_singleton.mp h]; exact hdn
  rw [EdgesFrom_snoc] at hsnoc
  obtain ⟨hmem, hname⟩ := task_map_get_mem hget
  have hcnt : 0 < (graphSucc tasks d).count n :=
    List.count_pos_iff.mpr (mem_graphSucc.mpr ⟨t, hmem, hname, hd⟩)
  omega

/-! ## Task Graph Builder: the neighbor-relaxation loop -/

lemma relax_deg (suf : List Str) : ∀ (deg : Str → Nat) (queue : List Str),
    (relaxNeighbors suf deg queue).1 = fun n => deg n - suf.count n := by
  induction suf with
  | nil =>
    intro deg queue
    funext n
    simp [relaxNeighbors]
  | cons nb rest ih =>
    intro deg queue
    show (relaxNeighbors rest (Function.update deg nb (deg nb - 1)) _).1 = _
    rw [ih]
    funext n
    by_cases he : n = nb
    · subst he
      rw [Function.update_same, List.count_cons_self]
      omega
    · rw [Function.update_noteq he, List.count_cons_of_ne he]

lemma relax_queue (suf : List Str) : ∀ (deg : Str → Nat) (queue : List Str),
    (∀ n, suf.count n ≤ deg n) →
    ∃ pushed, (relaxNeighbors suf deg queue).2 = pushed ++ queue
      ∧ pushed.Nodup
      ∧ ∀ n, (n ∈ pushed ↔ 0 < deg n ∧ deg n = suf.count n) := by
  induction suf with
  | nil =>
    intro deg queue _
    refine ⟨[], rfl, List.nodup_nil, ?_⟩
    intro n
    simp
    omega
  | cons nb rest ih =>
    intro deg queue h
    have hnb : 1 ≤ deg nb := by
      have := h nb
      rw [List.count_cons_self] at this
      omega
    have hrest : ∀ n, rest.count n
        ≤ Function.update deg nb (deg nb - 1) n := by
      intro n
      by_cases he : n = nb
      · subst he
        rw [Function.update_same]
        have := h n
        rw [List.count_cons_self] at this
        omega
      · rw [Function.update_noteq he]
        have := h n
        rwa [List.count_cons_of_ne he] at this
    by_cases hz : deg nb - 1 = 0
    · have hdeg1 : deg nb = 1 := by omega
      obtain ⟨pushed, hq, hnd, hmem⟩ :=
        ih (Function.update deg nb (deg nb - 1)) (nb :: queue) hrest
      have hstep : (relaxNeighbors (nb :: rest) deg queue).2
          = (relaxNeighbors rest (Function.update deg nb (deg nb - 1))
              (nb :: queue)).2 := by
        show (relaxNeighbors rest _ (if deg nb - 1 = 0 then nb :: queue
          else queue)).2 = _
        rw [if_pos hz]
      have hnbp : nb ∉ pushed := by
        intro hin
        have h0 := ((hmem nb).mp hin).1
        rw [Function.update_same, hz] at h0
        exact absurd h0 (by omega)
      refine ⟨pushed ++ [nb], ?_, ?_, ?_⟩
      · rw [hstep, hq]
        simp
      · simp [List.nodup_append, hnd, hnbp]
      · intro n
        by_cases he : n = nb
        · subst he
          have hcr : rest.count n = 0 := by
            have := h n
            rw [List.count_cons_self] at this
            omega
          simp only [List.mem_append, List.mem_singleton]
          constructor
          · intro _
            rw [List.count_cons_self]
            omega
          · intro _
            exact Or.inr trivial
        · have := hmem n
          rw [Function.update_noteq he] at this
          simp only [List.mem_append, List.mem_singleton]
          rw [List.count_cons_of_ne he]
          constructor
          · rintro (hin | hin)
            · exact this.mp hin
            · exact absurd hin he
          · intro hr
            exact Or.inl (this.mpr hr)
    · obtain ⟨pushed, hq, hnd, hmem⟩ :=
        ih (Function.update deg nb (deg nb - 1)) queue hrest
      have hstep : (relaxNeighbors (nb :: rest) deg queue).2
          = (relaxNeighbors rest (Function.update deg nb (deg nb - 1))
              queue).2 := by
        show (relaxNeighbors rest _ (if deg nb - 1 = 0 then nb :: queue
          else queue)).2 = _
        rw [if_neg hz]
      refine ⟨pushed, by rw [hstep, hq], hnd, ?_⟩
      intro n
      rw [hmem n]
      by_cases he : n = nb
      · subst he
        rw [Function.update_same, List.count_cons_self]
        omega
      · rw [Function.update_noteq he, List.count_cons_of_ne he]

/-! ## Task Graph Builder: the main loop invariant -/

lemma snoc_split {α : Type} {l p1 p2 : List α} {a x : α}
    (h : l ++ [a] = p1 ++ x :: p2) :
    (p2 = [] ∧ p1 = l ∧ x = a)
    ∨ (∃ p2', p2 = p2' ++ [a] ∧ l = p1 ++ x :: p2') := by
  rcases List.eq_nil_or_concat p2 with rfl | ⟨p2', b, rfl⟩
  · left
    have h2 := List.append_inj' h (by simp)
    exact ⟨rfl, h2.1.symm, by simpa using h2.2.symm⟩
  · right
    have hc : p1 ++ x :: p2'.concat b = (p1 ++ x :: p2') ++ [b] := by
      simp [List.concat_eq_append]
    rw [hc] at h
    have h2 := List.append_inj' h (by simp)
    have hab : a = b := by simpa using h2.2
    exact ⟨p2', by simp [List.concat_eq_append, hab], h2.1⟩

lemma kahnLoop_invariant {tasks : List Task}
    (hnodup : (namesOf tasks).Nodup) :
    ∀ (fuel : Nat) (queue : List Str) (deg : Str → Nat)
      (sorted : List Task) (popped : List Str),
      KahnInv tasks popped queue deg sorted →
      kahnPhi tasks queue deg ≤ fuel →
      ∃ popped' deg',
        KahnInv tasks popped' [] deg'
          (kahnLoop tasks fuel queue deg sorted) := by
  intro fuel
  induction fuel with
  | zero =>
    intro queue deg sorted popped hinv hphi
    have hq : queue = [] := by
      apply List.length_eq_zero.mp
      unfold kahnPhi at hphi
      omega
    subst hq
    exact ⟨popped, deg, hinv⟩
  | succ fuel ih =>
    intro queue deg sorted popped hinv hphi
    cases queue with
    | nil => exact ⟨popped, deg, hinv⟩
    | cons node qrest =>
      have hnode_names : node ∈ namesOf tasks :=
        hinv.queue_names node (List.mem_cons_self _ _)
      obtain ⟨t, hget⟩ : ∃ t, task_map_get tasks node = some t :=
        Option.isSome_iff_exists.mp (task_map_get_isSome.mpr hnode_names)
      have hnodep : node ∉ popped :=
        fun h => hinv.disj node h (List.mem_cons_self _ _)
      have hnodeq : node ∉ qrest := (List.nodup_cons.mp hinv.queue_nodup).1
      have hqrestnd : qrest.Nodup := (List.nodup_cons.mp hinv.queue_nodup).2
      have hpn₂ : (popped ++ [node]).Nodup := by
        simp [List.nodup_append, hinv.popped_nodup, hnodep]
      have hsub₂ : ∀ x ∈ popped ++ [node], x ∈ namesOf tasks := by
        intro x hx
        rcases List.mem_append.mp hx with h | h
        · exact hinv.popped_names x h
        · rw [List.mem_singleton.mp h]; exact hnode_names
      have hEle₂ : ∀ n, EdgesFrom tasks (popped ++ [node]) n
          ≤ inDeg0 tasks n := fun n => EdgesFrom_le hnodup hpn₂ hsub₂ n
      have hcnt_le : ∀ n, (graphSucc tasks node).count n ≤ deg n := by
        intro n
        have h1 := hEle₂ n
        rw [EdgesFrom_snoc] at h1
        rw [hinv.deg_eq n]
        have h2 := hinv.edges_le n
        omega
      rcases hrel : relaxNeighbors (graphSucc tasks node) deg qrest
        with ⟨deg₂, queue₂⟩
      have hdeg₂ : deg₂ = fun n => deg n - (graphSucc tasks node).count n :=
        by have := relax_deg (graphSucc tasks node) deg qrest
           rwa [hrel] at this
      obtain ⟨pushed, hq₂, hpushnd, hpushmem⟩ :=
        relax_queue (graphSucc tasks node) deg qrest hcnt_le
      rw [hrel] at hq₂
      replace hq₂ : queue₂ = pushed ++ qrest := hq₂
      have hdegf : deg₂ = fun n =>
          inDeg0 tasks n - EdgesFrom tasks (popped ++ [node]) n := by
        rw [hdeg₂]
        funext n
        rw [hinv.deg_eq n, EdgesFrom_snoc]
        omega
      have hnodefull : EdgesFrom tasks popped node = inDeg0 tasks node :=
        (hinv.discovered node hnode_names).mpr
          (Or.inr (List.mem_cons_self _ _))
      have hpushed_char : ∀ n, n ∈ pushed ↔
          (EdgesFrom tasks popped n ≠ inDeg0 tasks n
            ∧ EdgesFrom tasks (popped ++ [node]) n = inDeg0 tasks n) := by
        intro n
        rw [hpushmem n, hinv.deg_eq n, EdgesFrom_snoc]
        have h1 := hinv.edges_le n
        have h2 := hEle₂ n
        rw [EdgesFrom_snoc] at h2
        omega
      have hpushed_names : ∀ n ∈ pushed, n ∈ namesOf tasks := by
        intro n hn
        have hc := (hpushmem n).mp hn
        have hcpos : 0 < (graphSucc tasks node).count n := by omega
        exact graphSucc_names (List.count_pos_iff.mp hcpos)
      have hpushed_fresh : ∀ n ∈ pushed,
          n ∉ popped ++ [node] ∧ n ∉ qrest := by
        intro n hn
        have hchar := (hpushed_char n).mp hn
        constructor
        · intro hin
          rcases List.mem_append.mp hin with h | h
          · exact hchar.1 ((hinv.discovered n (hpushed_names n hn)).mpr
              (Or.inl h))
          · rw [List.mem_singleton.mp h] at hchar
            exact hchar.1 hnodefull
        · intro hin
          exact hchar.1 ((hinv.discovered n (hpushed_names n hn)).mpr
            (Or.inr (List.mem_cons_of_mem _ hin)))
      have hEmono : ∀ n, EdgesFrom tasks popped n
          ≤ EdgesFrom tasks (popped ++ [node]) n := by
        intro n
        rw [EdgesFrom_snoc]
        omega
      have hinv₂ : KahnInv tasks (popped ++ [node]) (pushed ++ qrest)
          deg₂ (sorted ++ [t]) := by
        refine ⟨hpn₂, ?_, ?_, hsub₂, ?_, ?_, hEle₂, ?_, ?_, ?_, ?_⟩
        · -- queue_nodup
          rw [List.nodup_append]
          exact ⟨hpushnd, hqrestnd,
            fun n hn => (hpushed_fresh n hn).2⟩
        · -- disj
          intro n hnp hnq
          rcases List.mem_append.mp hnq with h | h
          · exact (hpushed_fresh n h).1 hnp
          · rcases List.mem_append.mp hnp with h2 | h2
            · exact hinv.disj n h2 (List.mem_cons_of_mem _ h)
            · rw [List.mem_singleton.mp h2] at h
              exact hnodeq h
        · -- queue_names
          intro n hn
          rcases List.mem_append.mp hn with h | h
          · exact hpushed_names n h
          · exact hinv.queue_names n (List.mem_cons_of_mem _ h)
        · -- sorted_eq
          rw [List.filterMap_append, hinv.sorted_eq]
          simp [hget]
        · -- deg_eq
          intro n
          rw [hdegf]
        · -- discovered
          intro n hn
          constructor
          · intro hfull
            by_cases hold : EdgesFrom tasks popped n = inDeg0 tasks n
            · rcases (hinv.discovered n hn).mp hold with h | h
              · exact Or.inl (List.mem_append.mpr (Or.inl h))
              · rcases List.mem_cons.mp h with h2 | h2
                · exact Or.inl (List.mem_append.mpr (Or.inr (by simp [h2])))
                · exact Or.inr (List.mem_append.mpr (Or.inr h2))
            · exact Or.inr (List.mem_append.mpr
                (Or.inl ((hpushed_char n).mpr ⟨hold, hfull⟩)))
          · intro hmem
            have hle := hEle₂ n
            rcases hmem with h | h
            · rcases List.mem_append.mp h with h2 | h2
              · have := (hinv.discovered n hn).mpr (Or.inl h2)
                have := hEmono n
                omega
              · have hn2 : n = node := List.mem_singleton.mp h2
                subst hn2
                have h4 := hEmono n
                omega
            · rcases List.mem_append.mp h with h2 | h2
              · exact ((hpushed_char n).mp h2).2
              · have := (hinv.discovered n hn).mpr
                  (Or.inr (List.mem_cons_of_mem _ h2))
                have := hEmono n
                omega
        · -- queue_deps
          intro n hn u hu d hd
          rcases List.mem_append.mp hn with h | h
          · have hfull := ((hpushed_char n).mp h).2
            exact deps_in_popped_of_full hnodup hpn₂ hsub₂ hu hfull d hd
          · have := hinv.queue_deps n (List.mem_cons_of_mem _ h) u hu d hd
            exact List.mem_append.mpr (Or.inl this)
        · -- popped_topo
          intro p1 x p2 hsplit u hu d hd
          rcases snoc_split hsplit with ⟨_, hp1, hx⟩ | ⟨p2', _, hpop⟩
          · have hut : u = t := by
              rw [hx] at hu
              rw [hget] at hu
              exact (Option.some.inj hu).symm
            subst hut
            rw [hp1]
            exact hinv.queue_deps node (List.mem_cons_self _ _) u hget d hd
          · exact hinv.popped_topo p1 x p2' hpop u hu d hd
      have hGsub : ∀ n ∈ pushed, n ∈ graphSucc tasks node := by
        intro n hn
        have hc := (hpushmem n).mp hn
        have hcpos : 0 < (graphSucc tasks node).count n := by omega
        exact List.count_pos_iff.mp hcpos
      have hphi₂ : kahnPhi tasks (pushed ++ qrest) deg₂ ≤ fuel := by
        unfold kahnPhi at hphi ⊢
        rw [hdeg₂]
        rw [sum_map_sub_of_le _ _ _ (fun n _ => hcnt_le n)]
        have hG : ((namesOf tasks).map
            (fun n => (graphSucc tasks node).count n)).sum
            = (graphSucc tasks node).length :=
          sum_count_keys _ _ hnodup (fun x hx => graphSucc_names hx)
        have hplen : pushed.length ≤ (graphSucc tasks node).length :=
          List.Subperm.length_le (hpushnd.subperm hGsub)
        have hGle : ((namesOf tasks).map
            (fun n => (graphSucc tasks node).count n)).sum
            ≤ ((namesOf tasks).map deg).sum :=
          sum_map_mono _ _ _ (fun n _ => hcnt_le n)
        rw [hG] at hGle ⊢
        simp only [List.length_append, List.length_cons] at hphi ⊢
        omega
      have hloop : kahnLoop tasks (fuel + 1) (node :: qrest) deg sorted
          = kahnLoop tasks fuel queue₂ deg₂ (sorted ++ [t]) := by
        simp only [kahnLoop, hget, hrel]
      rw [hloop, hq₂]
      exact ih (pushed ++ qrest) deg₂ (sorted ++ [t]) (popped ++ [node])
        hinv₂ hphi₂

/-! ## Task Graph Builder: initial state and endgame lemmas -/

lemma kahn_initial_inv {tasks : List Task}
    (hnodup : (namesOf tasks).Nodup) :
    KahnInv tasks []
      ((namesOf tasks).filter (fun n => inDeg0 tasks n = 0))
      (inDeg0 tasks) [] := by
  refine ⟨List.nodup_nil, hnodup.filter _, ?_, ?_, ?_, rfl, ?_, ?_, ?_, ?_,
    ?_⟩
  · intro n h _
    exact absurd h (List.not_mem_nil n)
  · intro n h
    exact absurd h (List.not_mem_nil n)
  · intro n hn
    exact (List.mem_filter.mp hn).1
  · intro n
    exact Nat.zero_le _
  · intro n
    rw [EdgesFrom_nil]
    omega
  · intro n hn
    rw [EdgesFrom_nil]
    simp only [List.not_mem_nil, false_or]
    rw [List.mem_filter]
    constructor
    · intro h
      exact ⟨hn, by simpa using h.symm⟩
    · intro h
      have := h.2
      simpa using (by simpa using this : inDeg0 tasks n = 0).symm
  · intro n hn u hu d hd
    have hz : inDeg0 tasks n = 0 := by
      have := (List.mem_filter.mp hn).2
      simpa using this
    exact deps_in_popped_of_full hnodup List.nodup_nil
      (fun x hx => absurd hx (List.not_mem_nil x)) hu
      (by rw [EdgesFrom_nil, hz]) d hd
  · intro p1 x p2 hsplit
    simp at hsplit

lemma sum_inDeg0 {tasks : List Task} (hnodup : (namesOf tasks).Nodup) :
    ((namesOf tasks).map (inDeg0 tasks)).sum
      = (tasks.map (fun t => (presentDeps tasks t).length)).sum := by
  have h1 : ∀ n : Str, inDeg0 tasks n
      = (tasks.map (fun t =>
          if t.name = n then (presentDeps tasks t).length else 0)).sum := by
    intro n
    rw [inDeg0, ← sum_map_ite_filter]
  rw [List.map_congr_left (fun n _ => h1 n), sum_swap]
  have h2 : ∀ t ∈ tasks,
      ((namesOf tasks).map (fun a =>
        if t.name = a then (presentDeps tasks t).length else 0)).sum
      = (presentDeps tasks t).length :=
    fun t ht => sum_ite_single _ _ _ hnodup (mem_namesOf.mpr ⟨t, ht, rfl⟩)
  rw [List.map_congr_left h2]

lemma kahnPhi_initial_le {tasks : List Task}
    (hnodup : (namesOf tasks).Nodup) :
    kahnPhi tasks ((namesOf tasks).filter (fun n => inDeg0 tasks n = 0))
      (inDeg0 tasks) ≤ kahnFuel tasks := by
  unfold kahnPhi kahnFuel
  have h1 : ((namesOf tasks).filter
      (fun n => inDeg0 tasks n = 0)).length ≤ tasks.length := by
    calc ((namesOf tasks).filter (fun n => inDeg0 tasks n = 0)).length
        ≤ (namesOf tasks).length := List.length_filter_le _ _
      _ = tasks.length := by simp [namesOf]
  have h2 : ((namesOf tasks).map (inDeg0 tasks)).sum
      ≤ (tasks.map (fun t => t.depends_on.length)).sum := by
    rw [sum_inDeg0 hnodup]
    exact sum_map_mono _ _ _
      (fun t _ => List.length_filter_le _ _)
  omega

lemma exists_min_image (l : List Str) (hl : l ≠ []) (r : Str → Nat) :
    ∃ s ∈ l, ∀ y ∈ l, r s ≤ r y := by
  induction l with
  | nil => exact absurd rfl hl
  | cons a l ih =>
    cases l with
    | nil =>
      refine ⟨a, List.mem_cons_self _ _, ?_⟩
      intro y hy
      rw [List.mem_singleton.mp hy]
    | cons b l' =>
      obtain ⟨s, hs, hmin⟩ := ih (List.cons_ne_nil b l')
      by_cases hc : r a ≤ r s
      · refine ⟨a, List.mem_cons_self _ _, ?_⟩
        intro y hy
        rcases List.mem_cons.mp hy with rfl | hy
        · exact le_refl _
        · exact le_trans hc (hmin y hy)
      · refine ⟨s, List.mem_cons_of_mem _ hs, ?_⟩
        intro y hy
        rcases List.mem_cons.mp hy with rfl | hy
        · omega
        · exact hmin y hy

lemma sum_filter_split {α : Type} (l : List α) (p : α → Prop)
    [DecidablePred p] (f : α → Nat) :
    (l.map f).sum = ((l.filter (fun x => p x)).map f).sum
      + ((l.filter (fun x => ¬p x)).map f).sum := by
  induction l with
  | nil => simp
  | cons a l ih =>
    by_cases hp : p a
    · simp [List.filter_cons, hp, ih]
      omega
    · simp [List.filter_cons, hp, ih]
      omega

lemma full_of_deps_in {tasks : List Task}
    (hnodup : (namesOf tasks).Nodup) {popped : List Str}
    (hpn : popped.Nodup) (hsub : ∀ x ∈ popped, x ∈ namesOf tasks)
    {s : Str} {t : Task} (hget : task_map_get tasks s = some t)
    (hdeps : ∀ d ∈ presentDeps tasks t, d ∈ popped) :
    EdgesFrom tasks popped s = inDeg0 tasks s := by
  apply le_antisymm (EdgesFrom_le hnodup hpn hsub s)
  rw [← total_edges hnodup s,
    sum_filter_split (namesOf tasks) (fun d => d ∈ popped)]
  have hz : (((namesOf tasks).filter (fun d => ¬d ∈ popped)).map
      (fun d => (graphSucc tasks d).count s)).sum = 0 := by
    apply List.sum_eq_zero
    intro x hx
    obtain ⟨d, hd, he⟩ := List.mem_map.mp hx
    have hdnp : d ∉ popped := by
      have := (List.mem_filter.mp hd).2
      simpa using this
    rcases Nat.eq_zero_or_pos ((graphSucc tasks d).count s) with h0 | h0
    · rw [h0] at he; exact he.symm
    · exfalso
      obtain ⟨u, hu, hun, hud⟩ := mem_graphSucc.mp (List.count_pos_iff.mp h0)
      obtain ⟨htm, htn⟩ := task_map_get_mem hget
      have : u = t := name_injective hnodup hu htm (by rw [hun, htn])
      rw [this] at hud
      exact hdnp (hdeps d hud)
  rw [hz, Nat.add_zero]
  have hperm : ((namesOf tasks).filter (fun d => d ∈ popped)).Perm popped := by
    rw [List.perm_ext_iff_of_nodup (hnodup.filter _) hpn]
    intro a
    rw [List.mem_filter]
    constructor
    · intro h
      simpa using h.2
    · intro h
      exact ⟨hsub a h, by simpa using h⟩
  unfold EdgesFrom
  exact le_of_eq (List.Perm.sum_eq (List.Perm.map _ hperm))

lemma filterMap_length_of_some {α β : Type} {f : α → Option β} :
    ∀ {l : List α}, (∀ x ∈ l, (f x).isSome) →
      (l.filterMap f).length = l.length := by
  intro l
  induction l with
  | nil => intro _; rfl
  | cons a l ih =>
    intro h
    obtain ⟨b, hb⟩ := Option.isSome_iff_exists.mp
      (h a (List.mem_cons_self _ _))
    rw [List.filterMap_cons, hb]
    simp only [List.length_cons]
    rw [ih (fun x hx => h x (List.mem_cons_of_mem _ hx))]

lemma filterMap_some_of_mem {α : Type} :
    ∀ (l : List α) (f : α → Option α), (∀ x ∈ l, f x = some x) →
      l.filterMap f = l := by
  intro l
  induction l with
  | nil => intro _ _; rfl
  | cons a l ih =>
    intro f h
    rw [List.filterMap_cons, h a (List.mem_cons_self _ _),
      ih f (fun x hx => h x (List.mem_cons_of_mem _ hx))]

lemma filterMap_names {tasks : List Task}
    (hnodup : (namesOf tasks).Nodup) :
    (namesOf tasks).filterMap (task_map_get tasks) = tasks := by
  unfold namesOf
  rw [List.filterMap_map]
  apply filterMap_some_of_mem
  intro t ht
  exact task_map_get_of_mem hnodup ht

lemma filterMap_split {α β : Type} {f : α → Option β} :
    ∀ {l : List α} {p1 : List β} {x : β} {p2 : List β},
      l.filterMap f = p1 ++ x :: p2 →
      ∃ l1 a l2, l = l1 ++ a :: l2 ∧ f a = some x
        ∧ l1.filterMap f = p1 := by
  intro l
  induction l with
  | nil =>
    intro p1 x p2 h
    rw [List.filterMap_nil] at h
    exact absurd h.symm (by simp)
  | cons c l ih =>
    intro p1 x p2 h
    cases hfc : f c with
    | none =>
      rw [List.filterMap_cons_none hfc] at h
      obtain ⟨l1, a, l2, he, hfa, hfm⟩ := ih h
      exact ⟨c :: l1, a, l2, by simp [he], hfa,
        by rw [List.filterMap_cons_none hfc]; exact hfm⟩
    | some b =>
      rw [List.filterMap_cons_some hfc] at h
      cases p1 with
      | nil =>
        simp only [List.nil_append] at h
        injection h with h1 h2
        exact ⟨[], c, l, rfl, by rw [hfc, h1], rfl⟩
      | cons p p1' =>
        simp only [List.cons_append] at h
        injection h with h1 h2
        obtain ⟨l1, a, l2, he, hfa, hfm⟩ := ih h2
        refine ⟨c :: l1, a, l2, by simp [he], hfa, ?_⟩
        rw [List.filterMap_cons_some hfc, hfm, h1]

lemma first_mem_split {α : Type} {S : α → Prop} [DecidablePred S] :
    ∀ {l : List α}, (∃ a ∈ l, S a) →
      ∃ p1 x p2, l = p1 ++ x :: p2 ∧ S x ∧ ∀ y ∈ p1, ¬S y := by
  intro l
  induction l with
  | nil =>
    rintro ⟨a, ha, _⟩
    exact absurd ha (List.not_mem_nil a)
  | cons c l ih =>
    rintro ⟨a, ha, hS⟩
    by_cases hc : S c
    · exact ⟨[], c, l, rfl, hc, fun y hy => absurd hy (List.not_mem_nil y)⟩
    · have hal : a ∈ l := by
        rcases List.mem_cons.mp ha with rfl | h
        · exact absurd hS hc
        · exact h
      obtain ⟨p1, x, p2, he, hx, hp1⟩ := ih ⟨a, hal, hS⟩
      refine ⟨c :: p1, x, p2, by simp [he], hx, ?_⟩
      intro y hy
      rcases List.mem_cons.mp hy with rfl | h
      · exact hc
      · exact hp1 y h

lemma kahn_final {tasks : List Task} (hnodup : (namesOf tasks).Nodup) :
    ∃ popped deg, KahnInv tasks popped [] deg (kahn_sorted tasks) := by
  unfold kahn_sorted
  exact kahnLoop_invariant hnodup (kahnFuel tasks) _ _ _ []
    (kahn_initial_inv hnodup) (kahnPhi_initial_le hnodup)

/-! ## Task Graph Builder: main theorems (C3, C4) -/

/-- C3: for a hook with unique task names whose present-dependency relation
is acyclic, the graph builder succeeds and returns a permutation of the
input tasks in which every task appears after all of its dependencies that
are present in the hook; dependency names absent from the hook are ignored
and never cause an error (they are unconstrained by `Acyclic` and simply
filtered out of the graph). -/
theorem sort_tasks_topological (tasks : List Task)
    (hnodup : (namesOf tasks).Nodup) (hacyc : Acyclic tasks) :
    ∃ sorted, sort_tasks_by_dependencies tasks = .ok sorted
      ∧ sorted.Perm tasks ∧ TopoOrdered tasks sorted := by
  obtain ⟨popped, deg, hfin⟩ := kahn_final hnodup
  have hall : ∀ n ∈ namesOf tasks, n ∈ popped := by
    by_contra hnot
    push_neg at hnot
    obtain ⟨n0, hn0, hn0p⟩ := hnot
    obtain ⟨r, hr⟩ := hacyc
    have hR : ((namesOf tasks).filter (fun n => n ∉ popped)) ≠ [] := by
      intro he
      have hmem : n0 ∈ (namesOf tasks).filter (fun n => n ∉ popped) := by
        rw [List.mem_filter]
        exact ⟨hn0, by simpa using hn0p⟩
      rw [he] at hmem
      exact absurd hmem (List.not_mem_nil n0)
    obtain ⟨s, hsR, hsmin⟩ := exists_min_image _ hR r
    have hsmem := List.mem_filter.mp hsR
    have hs_names : s ∈ namesOf tasks := hsmem.1
    have hs_np : s ∉ popped := by simpa using hsmem.2
    obtain ⟨t, hget⟩ := Option.isSome_iff_exists.mp
      (task_map_get_isSome.mpr hs_names)
    obtain ⟨htm, htn⟩ := task_map_get_mem hget
    have hdeps : ∀ d ∈ presentDeps tasks t, d ∈ popped := by
      intro d hd
      by_contra hdp
      obtain ⟨hd1, hd2⟩ := mem_presentDeps.mp hd
      have hdR : d ∈ (namesOf tasks).filter (fun n => n ∉ popped) := by
        rw [List.mem_filter]
        exact ⟨hd2, by simpa using hdp⟩
      have h1 := hsmin d hdR
      have h2 := hr t htm d hd1 hd2
      rw [htn] at h2
      omega
    have hfull := full_of_deps_in hnodup hfin.popped_nodup
      hfin.popped_names hget hdeps
    have hdisc := (hfin.discovered s hs_names).mp hfull
    simp only [List.not_mem_nil, or_false] at hdisc
    exact hs_np hdisc
  have hperm : popped.Perm (namesOf tasks) := by
    rw [List.perm_ext_iff_of_nodup hfin.popped_nodup hnodup]
    intro a
    exact ⟨fun h => hfin.popped_names a h, fun h => hall a h⟩
  have hsT : (kahn_sorted tasks).Perm tasks := by
    rw [hfin.sorted_eq]
    have h1 := List.Perm.filterMap (task_map_get tasks) hperm
    rwa [filterMap_names hnodup] at h1
  have hlen : (kahn_sorted tasks).length = tasks.length := hsT.length_eq
  refine ⟨kahn_sorted tasks, ?_, hsT, ?_⟩
  · unfold sort_tasks_by_dependencies
    rw [if_neg (by omega)]
  · intro p1 t p2 hsplit d hd hdn
    rw [hfin.sorted_eq] at hsplit
    obtain ⟨l1, a, l2, hle, hfa, hfm⟩ := filterMap_split hsplit
    have hdp : d ∈ l1 :=
      hfin.popped_topo l1 a l2 hle t hfa d (mem_presentDeps.mpr ⟨hd, hdn⟩)
    obtain ⟨u, hgu⟩ := Option.isSome_iff_exists.mp
      (task_map_get_isSome.mpr hdn)
    refine ⟨u, ?_, (task_map_get_mem hgu).2⟩
    rw [← hfm]
    exact List.mem_filterMap.mpr ⟨d, hdp, hgu⟩

/-- Witness for C3: `test` depends on `lint`, `build` depends on `test` and
on the absent name `missing`; the builder succeeds with a topological
permutation. -/
theorem sort_tasks_topological_witness :
    ∃ sorted, sort_tasks_by_dependencies demoTasks3 = .ok sorted
      ∧ sorted.Perm demoTasks3 ∧ TopoOrdered demoTasks3 sorted :=
  sort_tasks_topological demoTasks3 (by decide) ⟨demoRank, by decide⟩

/-- C4: for a hook with unique task names containing a dependency cycle
among present tasks, Kahn's algorithm emits fewer tasks than it was given,
`sort_tasks_by_dependencies` fails with the circular-dependency error, and
`execute_hook` propagates that error before any task runs — the error return
carries no `TaskResult` at all. -/
theorem sort_tasks_cycle_detected {P : Type} (env : ExecEnv P)
    (settings : Settings) (hook : Hook)
    (hnodup : (namesOf hook.tasks).Nodup) (hcyc : HasCycle hook.tasks) :
    (kahn_sorted hook.tasks).length < hook.tasks.length
    ∧ sort_tasks_by_dependencies hook.tasks = .error cycleMsg
    ∧ execute_hook env settings hook = .error cycleMsg := by
  obtain ⟨S, hSne, hSnames, hSdep⟩ := hcyc
  obtain ⟨popped, deg, hfin⟩ := kahn_final hnodup
  have havoid : ∀ s ∈ S, s ∉ popped := by
    intro s hs hsp
    have hex : ∃ a ∈ popped, a ∈ S := ⟨s, hsp, hs⟩
    obtain ⟨p1, x, p2, hsplit, hxS, hp1⟩ := first_mem_split hex
    obtain ⟨t, htm, htn, d, hdd, hdS⟩ := hSdep x hxS
    have hget : task_map_get hook.tasks x = some t := by
      rw [← htn]
      exact task_map_get_of_mem hnodup htm
    have hdnames : d ∈ namesOf hook.tasks := hSnames d hdS
    have hdp1 : d ∈ p1 := hfin.popped_topo p1 x p2 hsplit t hget d
      (mem_presentDeps.mpr ⟨hdd, hdnames⟩)
    exact hp1 d hdp1 hdS
  obtain ⟨s0, hs0⟩ := List.exists_mem_of_ne_nil S hSne
  have hs0n : s0 ∈ namesOf hook.tasks := hSnames s0 hs0
  have hs0p : s0 ∉ popped := havoid s0 hs0
  have hsp : List.Subperm popped (namesOf hook.tasks) :=
    hfin.popped_nodup.subperm hfin.popped_names
  have hlt : popped.length < (namesOf hook.tasks).length := by
    rcases Nat.lt_or_ge popped.length (namesOf hook.tasks).length with h | h
    · exact h
    · exfalso
      have hpm := List.Subperm.perm_of_length_le hsp h
      exact hs0p (hpm.mem_iff.mpr hs0n)
  have hlen : (kahn_sorted hook.tasks).length = popped.length := by
    rw [hfin.sorted_eq]
    apply filterMap_length_of_some
    intro x hx
    exact task_map_get_isSome.mpr (hfin.popped_names x hx)
  have hnames_len : (namesOf hook.tasks).length = hook.tasks.length := by
    simp [namesOf]
  have hmain : (kahn_sorted hook.tasks).length < hook.tasks.length := by
    omega
  have hsort : sort_tasks_by_dependencies hook.tasks = .error cycleMsg := by
    unfold sort_tasks_by_dependencies
    rw [if_pos (by omega)]
  refine ⟨hmain, hsort, ?_⟩
  unfold execute_hook
  rw [hsort]

/-- Witness for C4: the two-task cycle `a ↔ b` makes both the sorter and
`execute_hook` fail with the circular-dependency error. -/
theorem sort_tasks_cycle_detected_witness :
    (kahn_sorted cycHook.tasks).length < cycHook.tasks.length
    ∧ sort_tasks_by_dependencies cycHook.tasks = .error cycleMsg
    ∧ execute_hook (demoEnv spawnExit1) defaultSettings cycHook
      = .error cycleMsg :=
  sort_tasks_cycle_detected (demoEnv spawnExit1) defaultSettings cycHook
    (by decide)
    ⟨["a".toList, "b".toList], by decide, by decide, by decide⟩

end Fasthooks
